import Mathlib

/-!
# Verification of the Prismatic cluster detector and latency sampler

Shallow embedding of the algorithmic core of the CS524 Prismatic
VA-system evaluation repository:

* `detectCluster` (svg-baseline/js/network-view.js): thresholded
  correlation graph, BFS from must-have seeds, connected-component
  extraction and ordering;
* the latency-sampler reduction (`measureBrushLatency` in matrix.js,
  `measureBrush` in matrix-enriched.js and in the dynamic prism view):
  nearest-rank percentiles and frame-timestamp FPS.

JS numbers are modelled as `ℚ`, JS arrays as `List`, JS `Set`s as
insertion-ordered duplicate-free `List`s, and the dense JS array
`matrix[i][j]` as a total function `ℕ → ℕ → ℚ` (only indices
`i, j < tickers.length` are ever consulted by the embedded code).
The unbounded `while (queue.length > 0)` BFS loops are embedded with an
explicit fuel parameter; fuel `n + 1` is proved sufficient below
(each node is enqueued at most once, so at most `n + 1` pops happen).
-/

/-- Pointwise update of a function-represented array (`a[k] = v`). -/
def upd {α : Type} (f : ℕ → α) (k : ℕ) (v : α) : ℕ → α :=
  fun x => if x = k then v else f x

theorem upd_same {α : Type} (f : ℕ → α) (k : ℕ) (v : α) : upd f k v k = v := by
  simp [upd]

theorem upd_ne {α : Type} (f : ℕ → α) (k : ℕ) (v : α) {x : ℕ} (h : x ≠ k) :
    upd f k v x = f x := by
  simp [upd, h]

/-- One year's correlation data as loaded by `loadCorrelationForYear`:
the ordered ticker list and the dense correlation matrix. -/
structure CorrData where
  tickers : List String
  matrix : ℕ → ℕ → ℚ

/-- Lookup `tickers[idx]` (all uses have `idx < tickers.length`). -/
def tickerAt (d : CorrData) (idx : ℕ) : String :=
  d.tickers.getD idx ""

/-- The `tickerIndex` lookup table.  The source builds it by
`data.tickers.forEach((t, i) => { tickerIndex[t] = i; })`, so a later
occurrence of a duplicated ticker overwrites an earlier one; the
embedding folds over the list the same way. -/
def tickerIndex (ts : List String) (t : String) : Option ℕ :=
  (ts.foldl (fun (acc : Option ℕ × ℕ) s =>
    ((if s = t then some acc.2 else acc.1), acc.2 + 1)) (none, 0)).1

/-- The filter `mustHaveTickers.filter(t => tickerIndex[t] !== undefined)`. -/
def validMustHave (d : CorrData) (mh : List String) : List String :=
  mh.filter (fun t => (tickerIndex d.tickers t).isSome)

/-! ### tickerIndex characterisation -/

theorem tickerIndex_fold_snd (ts : List String) (acc : Option ℕ × ℕ) :
    (ts.foldl (fun (acc : Option ℕ × ℕ) s =>
      ((if s = t then some acc.2 else acc.1), acc.2 + 1)) acc).2 = acc.2 + ts.length := by
  induction ts generalizing acc with
  | nil => simp
  | cons a l ih => simp [ih]; omega

theorem tickerIndex_append (ts : List String) (a t : String) :
    tickerIndex (ts ++ [a]) t =
      if a = t then some ts.length else tickerIndex ts t := by
  unfold tickerIndex
  rw [List.foldl_append]
  simp [tickerIndex_fold_snd]

theorem tickerIndex_isSome_iff (ts : List String) (t : String) :
    (tickerIndex ts t).isSome ↔ t ∈ ts := by
  induction ts using List.reverseRecOn with
  | nil => simp [tickerIndex]
  | append_singleton l a ih =>
    rw [tickerIndex_append]
    by_cases h : a = t <;> simp [h, ih]
    exact fun h' => (h h'.symm).elim

theorem getD_append_left {α : Type} (l l' : List α) (d : α) (i : ℕ)
    (h : i < l.length) : (l ++ l').getD i d = l.getD i d := by
  rw [List.getD_eq_getD_get?, List.get?_append h, ← List.getD_eq_getD_get?]

theorem getD_append_length {α : Type} (l : List α) (a d : α) :
    (l ++ [a]).getD l.length d = a := by
  rw [List.getD_eq_getD_get?]
  simp

theorem tickerIndex_spec (ts : List String) (t : String) (i : ℕ)
    (h : tickerIndex ts t = some i) : i < ts.length ∧ ts.getD i "" = t := by
  induction ts using List.reverseRecOn generalizing i with
  | nil => simp [tickerIndex] at h
  | append_singleton l a ih =>
    rw [tickerIndex_append] at h
    by_cases ha : a = t
    · simp [ha] at h
      subst h
      refine ⟨by simp, ?_⟩
      rw [getD_append_length]
      exact ha
    · simp [ha] at h
      obtain ⟨hi, hget⟩ := ih i h
      refine ⟨by simp; omega, ?_⟩
      rw [getD_append_left _ _ _ _ hi]
      exact hget

theorem tickerIndex_of_nodup (ts : List String) (hnd : ts.Nodup) (i : ℕ)
    (hi : i < ts.length) : tickerIndex ts (ts.getD i "") = some i := by
  induction ts using List.reverseRecOn generalizing i with
  | nil => simp at hi
  | append_singleton l a ih =>
    rw [tickerIndex_append]
    simp at hi
    rcases Nat.lt_or_ge i l.length with h | h
    · have hgm : (l ++ [a]).getD i "" = l.getD i "" := getD_append_left _ _ _ _ h
      have hne : a ≠ (l ++ [a]).getD i "" := by
        rw [hgm, List.getD_eq_getD_get?, List.get?_eq_get h]
        simp only [Option.getD_some]
        intro hEq
        have hmem : a ∈ l := by rw [hEq]; exact List.get_mem l i h
        have := List.disjoint_of_nodup_append hnd
        exact absurd (List.mem_singleton_self a) (this hmem)
      rw [if_neg hne, hgm]
      exact ih (List.Nodup.of_append_left hnd) i h
    · have hieq : i = l.length := by omega
      subst hieq
      rw [getD_append_length]
      simp

/-! ### Adjacency construction (network-view.js lines 98–107) -/

/-- One inner-loop step: `if (Math.abs(matrix[i][j]) >= threshold)
{ adj[i].push(j); adj[j].push(i); }`. -/
def adjInsert (m : ℕ → ℕ → ℚ) (th : ℚ) (i : ℕ) (adj : ℕ → List ℕ) (j : ℕ) :
    ℕ → List ℕ :=
  if th ≤ |m i j| then
    let adj1 := upd adj i (adj i ++ [j])
    upd adj1 j (adj1 j ++ [i])
  else adj

/-- The adjacency lists built by the double loop
`for i in 0..n-1, for j in i+1..n-1`.  Note only the upper-triangle
entry `matrix[i][j]` (`i < j`) is ever read. -/
def buildAdj (n : ℕ) (m : ℕ → ℕ → ℚ) (th : ℚ) : ℕ → List ℕ :=
  (List.range n).foldl
    (fun adj i => (List.range' (i + 1) (n - (i + 1))).foldl (adjInsert m th i) adj)
    (fun _ => [])

theorem mem_adjInsert (m : ℕ → ℕ → ℚ) (th : ℚ) (i j : ℕ) (hij : i ≠ j)
    (adj : ℕ → List ℕ) (x y : ℕ) :
    y ∈ adjInsert m th i adj j x ↔
      y ∈ adj x ∨ (th ≤ |m i j| ∧ ((x = i ∧ y = j) ∨ (x = j ∧ y = i))) := by
  have hji : j ≠ i := Ne.symm hij
  by_cases hc : th ≤ |m i j|
  · have hE : adjInsert m th i adj j x =
        if x = j then adj j ++ [i] else if x = i then adj i ++ [j] else adj x := by
      simp only [adjInsert, if_pos hc, upd, if_neg hji]
    rw [hE]
    by_cases hxj : x = j
    · subst hxj
      rw [if_pos rfl]
      simp only [List.mem_append, List.mem_singleton]
      constructor
      · rintro (h | h)
        · exact Or.inl h
        · first
          | exact Or.inr ⟨hc, Or.inr ⟨rfl, h⟩⟩
          | exact Or.inr ⟨hc, Or.inr ⟨trivial, h⟩⟩
      · rintro (h | ⟨-, ⟨hxi, -⟩ | ⟨-, hyi⟩⟩)
        · exact Or.inl h
        · exact absurd hxi.symm hij
        · exact Or.inr hyi
    · by_cases hxi : x = i
      · subst hxi
        rw [if_neg hxj, if_pos rfl]
        simp only [List.mem_append, List.mem_singleton]
        constructor
        · rintro (h | h)
          · exact Or.inl h
          · first
            | exact Or.inr ⟨hc, Or.inl ⟨rfl, h⟩⟩
            | exact Or.inr ⟨hc, Or.inl ⟨trivial, h⟩⟩
        · rintro (h | ⟨-, ⟨-, hyj⟩ | ⟨hxj', -⟩⟩)
          · exact Or.inl h
          · exact Or.inr hyj
          · exact absurd hxj' hxj
      · rw [if_neg hxj, if_neg hxi]
        constructor
        · exact fun h => Or.inl h
        · rintro (h | ⟨-, ⟨hxi', -⟩ | ⟨hxj', -⟩⟩)
          · exact h
          · exact absurd hxi' hxi
          · exact absurd hxj' hxj
  · have hE : adjInsert m th i adj j x = adj x := by
      simp only [adjInsert, if_neg hc]
    rw [hE]
    constructor
    · exact fun h => Or.inl h
    · rintro (h | ⟨hc', -⟩)
      · exact h
      · exact absurd hc' hc

theorem mem_adjInsert_fold (m : ℕ → ℕ → ℚ) (th : ℚ) (i : ℕ) (js : List ℕ)
    (hji : ∀ j ∈ js, i < j) (adj : ℕ → List ℕ) (x y : ℕ) :
    y ∈ (js.foldl (adjInsert m th i) adj) x ↔
      y ∈ adj x ∨ (x = i ∧ y ∈ js ∧ th ≤ |m i y|) ∨
        (y = i ∧ x ∈ js ∧ th ≤ |m i x|) := by
  induction js generalizing adj with
  | nil => simp
  | cons j rest ih =>
    have hij : i < j := hji j (List.mem_cons_self j rest)
    have hrest : ∀ j' ∈ rest, i < j' := fun j' hj' => hji j' (List.mem_cons_of_mem j hj')
    simp only [List.foldl_cons]
    rw [ih hrest, mem_adjInsert m th i j (Nat.ne_of_lt hij) adj x y]
    constructor
    · rintro ((hmem | ⟨hc, ⟨hx, hy⟩ | ⟨hx, hy⟩⟩) | ⟨hx, hy, hcy⟩ | ⟨hy, hx, hcx⟩)
      · exact Or.inl hmem
      · exact Or.inr (Or.inl ⟨hx, by rw [hy]; exact List.mem_cons_self j rest, hy ▸ hc⟩)
      · exact Or.inr (Or.inr ⟨hy, by rw [hx]; exact List.mem_cons_self j rest, hx ▸ hc⟩)
      · exact Or.inr (Or.inl ⟨hx, List.mem_cons_of_mem j hy, hcy⟩)
      · exact Or.inr (Or.inr ⟨hy, List.mem_cons_of_mem j hx, hcx⟩)
    · rintro (hmem | ⟨hx, hy, hcy⟩ | ⟨hy, hx, hcx⟩)
      · exact Or.inl (Or.inl hmem)
      · rcases List.mem_cons.mp hy with hyj | hyr
        · exact Or.inl (Or.inr ⟨hyj ▸ hcy, Or.inl ⟨hx, hyj⟩⟩)
        · exact Or.inr (Or.inl ⟨hx, hyr, hcy⟩)
      · rcases List.mem_cons.mp hx with hxj | hxr
        · exact Or.inl (Or.inr ⟨hxj ▸ hcx, Or.inr ⟨hxj, hy⟩⟩)
        · exact Or.inr (Or.inr ⟨hy, hxr, hcx⟩)

theorem mem_buildAdj_fold (n : ℕ) (m : ℕ → ℕ → ℚ) (th : ℚ) (is : List ℕ)
    (hin : ∀ i ∈ is, i < n) (adj : ℕ → List ℕ) (x y : ℕ) :
    y ∈ (is.foldl
      (fun adj i => (List.range' (i + 1) (n - (i + 1))).foldl (adjInsert m th i) adj)
      adj) x ↔
      y ∈ adj x ∨ ∃ i ∈ is,
        (x = i ∧ i < y ∧ y < n ∧ th ≤ |m i y|) ∨
        (y = i ∧ i < x ∧ x < n ∧ th ≤ |m i x|) := by
  induction is generalizing adj with
  | nil => simp
  | cons i rest ih =>
    have hi : i < n := hin i (List.mem_cons_self i rest)
    have hrest : ∀ i' ∈ rest, i' < n := fun i' h => hin i' (List.mem_cons_of_mem i h)
    simp only [List.foldl_cons]
    rw [ih hrest]
    have hmemr : ∀ j : ℕ, j ∈ List.range' (i + 1) (n - (i + 1)) ↔ i < j ∧ j < n := by
      intro j
      rw [List.mem_range'_1]
      omega
    rw [mem_adjInsert_fold m th i _ (fun j hj => ((hmemr j).mp hj).1) adj x y]
    constructor
    · rintro ((hmem | ⟨hx, hy, hcy⟩ | ⟨hy, hx, hcx⟩) | ⟨i', hi', hcase⟩)
      · exact Or.inl hmem
      · rcases (hmemr y).mp hy with ⟨h1, h2⟩
        exact Or.inr ⟨i, List.mem_cons_self i rest, Or.inl ⟨hx, h1, h2, hcy⟩⟩
      · rcases (hmemr x).mp hx with ⟨h1, h2⟩
        exact Or.inr ⟨i, List.mem_cons_self i rest, Or.inr ⟨hy, h1, h2, hcx⟩⟩
      · exact Or.inr ⟨i', List.mem_cons_of_mem i hi', hcase⟩
    · rintro (hmem | ⟨i', hi', hcase⟩)
      · exact Or.inl (Or.inl hmem)
      · rcases List.mem_cons.mp hi' with hii | hir
        · subst hii
          rcases hcase with ⟨hx, h1, h2, hc⟩ | ⟨hy, h1, h2, hc⟩
          · exact Or.inl (Or.inr (Or.inl ⟨hx, (hmemr y).mpr ⟨h1, h2⟩, hc⟩))
          · exact Or.inl (Or.inr (Or.inr ⟨hy, (hmemr x).mpr ⟨h1, h2⟩, hc⟩))
        · exact Or.inr ⟨i', hir, hcase⟩

/-- Membership in the built adjacency lists: exactly the thresholded
edges, read from the upper triangle. -/
theorem mem_buildAdj (n : ℕ) (m : ℕ → ℕ → ℚ) (th : ℚ) (x y : ℕ) :
    y ∈ buildAdj n m th x ↔
      (x < y ∧ y < n ∧ th ≤ |m x y|) ∨ (y < x ∧ x < n ∧ th ≤ |m y x|) := by
  unfold buildAdj
  rw [mem_buildAdj_fold n m th (List.range n) (fun i hi => List.mem_range.mp hi)]
  simp only [List.not_mem_nil, false_or, List.mem_range]
  constructor
  · rintro ⟨i, hi, ⟨hx, h1, h2, hc⟩ | ⟨hy, h1, h2, hc⟩⟩
    · subst hx; exact Or.inl ⟨h1, h2, hc⟩
    · subst hy; exact Or.inr ⟨h1, h2, hc⟩
  · rintro (⟨h1, h2, hc⟩ | ⟨h1, h2, hc⟩)
    · exact ⟨x, by omega, Or.inl ⟨rfl, h1, h2, hc⟩⟩
    · exact ⟨y, by omega, Or.inr ⟨rfl, h1, h2, hc⟩⟩

theorem buildAdj_symm (n : ℕ) (m : ℕ → ℕ → ℚ) (th : ℚ) (x y : ℕ) :
    y ∈ buildAdj n m th x ↔ x ∈ buildAdj n m th y := by
  rw [mem_buildAdj, mem_buildAdj]
  constructor
  · rintro (⟨h1, h2, hc⟩ | ⟨h1, h2, hc⟩)
    · exact Or.inr ⟨h1, by omega, hc⟩
    · exact Or.inl ⟨h1, by omega, hc⟩
  · rintro (⟨h1, h2, hc⟩ | ⟨h1, h2, hc⟩)
    · exact Or.inr ⟨h1, by omega, hc⟩
    · exact Or.inl ⟨h1, by omega, hc⟩

theorem buildAdj_lt (n : ℕ) (m : ℕ → ℕ → ℚ) (th : ℚ) (x y : ℕ)
    (h : y ∈ buildAdj n m th x) : y < n ∧ x < n := by
  rcases (mem_buildAdj n m th x y).mp h with ⟨h1, h2, _⟩ | ⟨h1, h2, _⟩
  · exact ⟨h2, by omega⟩
  · exact ⟨by omega, h2⟩

theorem buildAdj_irrefl (n : ℕ) (m : ℕ → ℕ → ℚ) (th : ℚ) (x : ℕ) :
    x ∉ buildAdj n m th x := by
  intro h
  rcases (mem_buildAdj n m th x x).mp h with ⟨h1, _, _⟩ | ⟨h1, _, _⟩ <;> omega

/-! ### Reachability and the BFS of network-view.js lines 109–134 -/

/-- Reachability from `s` through the adjacency lists (reflexive,
closed under following an edge). -/
inductive Reach (adj : ℕ → List ℕ) (s : ℕ) : ℕ → Prop
  | refl : Reach adj s s
  | step {u v : ℕ} : Reach adj s u → v ∈ adj u → Reach adj s v

theorem Reach.trans {adj : ℕ → List ℕ} {a b c : ℕ}
    (hab : Reach adj a b) (hbc : Reach adj b c) : Reach adj a c := by
  induction hbc with
  | refl => exact hab
  | step h hv ih => exact Reach.step ih hv

theorem Reach.symm {adj : ℕ → List ℕ}
    (hsym : ∀ u v, v ∈ adj u ↔ u ∈ adj v) {a b : ℕ}
    (hab : Reach adj a b) : Reach adj b a := by
  induction hab with
  | refl => exact Reach.refl
  | step h hv ih =>
    exact Reach.trans (Reach.step Reach.refl ((hsym _ _).mp hv)) ih

theorem Reach.ind_closed {adj : ℕ → List ℕ} {s : ℕ} (P : ℕ → Prop)
    (hP : ∀ u, P u → ∀ v ∈ adj u, P v) (hs : P s) {u : ℕ}
    (h : Reach adj s u) : P u := by
  induction h with
  | refl => exact hs
  | step h hv ih => exact hP _ ih _ hv

theorem Reach.exists_edge_into {adj : ℕ → List ℕ} {s u : ℕ}
    (h : Reach adj s u) : u = s ∨ ∃ w, u ∈ adj w := by
  induction h with
  | refl => exact Or.inl rfl
  | step h hv ih => exact Or.inr ⟨_, hv⟩

/-- The inner `for (const neighbor of adj[current])` loop of the
reachability BFS: unvisited neighbours are marked visited and
enqueued.  The visited set is kept as an insertion-ordered
duplicate-free list, mirroring the JS `Set`. -/
def bfsScan (adj : ℕ → List ℕ) (cur : ℕ) (vq : List ℕ × List ℕ) :
    List ℕ × List ℕ :=
  (adj cur).foldl
    (fun vq nb => if nb ∈ vq.1 then vq else (vq.1 ++ [nb], vq.2 ++ [nb])) vq

/-- The `while (queue.length > 0)` loop, with explicit fuel (the loop
pops one node per iteration and every node is enqueued at most once,
so `n + 1` fuel is enough — proved below). -/
def bfsAux (adj : ℕ → List ℕ) : ℕ → List ℕ → List ℕ → List ℕ
  | 0, visited, _ => visited
  | _ + 1, visited, [] => visited
  | fuel + 1, visited, cur :: rest =>
    let vq := bfsScan adj cur (visited, rest)
    bfsAux adj fuel vq.1 vq.2

/-- One seed's BFS: `visited = new Set([startIdx]); queue = [startIdx]`. -/
def bfsFrom (adj : ℕ → List ℕ) (n s : ℕ) : List ℕ :=
  bfsAux adj (n + 1) [s] [s]

/-- Generic form of the neighbour scan, for reasoning by induction. -/
def scanFold (l : List ℕ) (vq : List ℕ × List ℕ) : List ℕ × List ℕ :=
  l.foldl (fun vq nb => if nb ∈ vq.1 then vq else (vq.1 ++ [nb], vq.2 ++ [nb])) vq

theorem bfsScan_eq_scanFold (adj : ℕ → List ℕ) (cur : ℕ) (vq : List ℕ × List ℕ) :
    bfsScan adj cur vq = scanFold (adj cur) vq := rfl

theorem scanFold_nil (vq : List ℕ × List ℕ) : scanFold [] vq = vq := rfl

theorem scanFold_cons (nb : ℕ) (l : List ℕ) (vq : List ℕ × List ℕ) :
    scanFold (nb :: l) vq =
      scanFold l (if nb ∈ vq.1 then vq else (vq.1 ++ [nb], vq.2 ++ [nb])) := rfl

theorem scanFold_fst_append (l : List ℕ) (vq : List ℕ × List ℕ) :
    ∃ ext : List ℕ, (scanFold l vq).1 = vq.1 ++ ext := by
  induction l generalizing vq with
  | nil => exact ⟨[], by simp [scanFold_nil]⟩
  | cons nb l ih =>
    rw [scanFold_cons]
    by_cases h : nb ∈ vq.1
    · rw [if_pos h]; exact ih vq
    · rw [if_neg h]
      obtain ⟨ext, hext⟩ := ih (vq.1 ++ [nb], vq.2 ++ [nb])
      exact ⟨[nb] ++ ext, by rw [hext]; simp⟩

theorem scanFold_snd_append (l : List ℕ) (vq : List ℕ × List ℕ) :
    ∃ ext : List ℕ, (scanFold l vq).2 = vq.2 ++ ext := by
  induction l generalizing vq with
  | nil => exact ⟨[], by simp [scanFold_nil]⟩
  | cons nb l ih =>
    rw [scanFold_cons]
    by_cases h : nb ∈ vq.1
    · rw [if_pos h]; exact ih vq
    · rw [if_neg h]
      obtain ⟨ext, hext⟩ := ih (vq.1 ++ [nb], vq.2 ++ [nb])
      exact ⟨[nb] ++ ext, by rw [hext]; simp⟩

theorem scanFold_sub_fst (l : List ℕ) (vq : List ℕ × List ℕ) (x : ℕ)
    (h : x ∈ vq.1) : x ∈ (scanFold l vq).1 := by
  obtain ⟨ext, hext⟩ := scanFold_fst_append l vq
  rw [hext]
  exact List.mem_append_left _ h

theorem scanFold_sub_snd (l : List ℕ) (vq : List ℕ × List ℕ) (x : ℕ)
    (h : x ∈ vq.2) : x ∈ (scanFold l vq).2 := by
  obtain ⟨ext, hext⟩ := scanFold_snd_append l vq
  rw [hext]
  exact List.mem_append_left _ h

theorem scanFold_mem_fst (l : List ℕ) (vq : List ℕ × List ℕ) (x : ℕ)
    (h : x ∈ (scanFold l vq).1) : x ∈ vq.1 ∨ x ∈ l := by
  induction l generalizing vq with
  | nil => exact Or.inl (by rwa [scanFold_nil] at h)
  | cons nb l ih =>
    rw [scanFold_cons] at h
    by_cases hm : nb ∈ vq.1
    · rw [if_pos hm] at h
      rcases ih vq h with h' | h'
      · exact Or.inl h'
      · exact Or.inr (List.mem_cons_of_mem _ h')
    · rw [if_neg hm] at h
      rcases ih (vq.1 ++ [nb], vq.2 ++ [nb]) h with h' | h'
      · rcases List.mem_append.mp h' with h'' | h''
        · exact Or.inl h''
        · simp at h''
          subst h''
          exact Or.inr (List.mem_cons_self _ _)
      · exact Or.inr (List.mem_cons_of_mem _ h')

theorem scanFold_mem_snd (l : List ℕ) (vq : List ℕ × List ℕ) (x : ℕ)
    (h : x ∈ (scanFold l vq).2) : x ∈ vq.2 ∨ x ∈ l := by
  induction l generalizing vq with
  | nil => exact Or.inl (by rwa [scanFold_nil] at h)
  | cons nb l ih =>
    rw [scanFold_cons] at h
    by_cases hm : nb ∈ vq.1
    · rw [if_pos hm] at h
      rcases ih vq h with h' | h'
      · exact Or.inl h'
      · exact Or.inr (List.mem_cons_of_mem _ h')
    · rw [if_neg hm] at h
      rcases ih (vq.1 ++ [nb], vq.2 ++ [nb]) h with h' | h'
      · rcases List.mem_append.mp h' with h'' | h''
        · exact Or.inl h''
        · simp at h''
          subst h''
          exact Or.inr (List.mem_cons_self _ _)
      · exact Or.inr (List.mem_cons_of_mem _ h')

theorem scanFold_all_in_fst (l : List ℕ) (vq : List ℕ × List ℕ) (x : ℕ)
    (h : x ∈ l) : x ∈ (scanFold l vq).1 := by
  induction l generalizing vq with
  | nil => simp at h
  | cons nb l ih =>
    rw [scanFold_cons]
    rcases List.mem_cons.mp h with h' | h'
    · subst h'
      by_cases hm : x ∈ vq.1
      · rw [if_pos hm]
        exact scanFold_sub_fst l vq x hm
      · rw [if_neg hm]
        exact scanFold_sub_fst l _ x (List.mem_append_right _ (by simp))
    · by_cases hm : nb ∈ vq.1
      · rw [if_pos hm]; exact ih vq h'
      · rw [if_neg hm]; exact ih _ h'

theorem scanFold_queue_sub_visited (l : List ℕ) (vq : List ℕ × List ℕ)
    (hq : ∀ x ∈ vq.2, x ∈ vq.1) :
    ∀ x ∈ (scanFold l vq).2, x ∈ (scanFold l vq).1 := by
  induction l generalizing vq with
  | nil => rw [scanFold_nil]; exact hq
  | cons nb l ih =>
    rw [scanFold_cons]
    by_cases hm : nb ∈ vq.1
    · rw [if_pos hm]; exact ih vq hq
    · rw [if_neg hm]
      refine ih (vq.1 ++ [nb], vq.2 ++ [nb]) ?_
      intro x hx
      rcases List.mem_append.mp hx with h' | h'
      · exact List.mem_append_left _ (hq x h')
      · exact List.mem_append_right _ h'

theorem scanFold_new_in_queue (l : List ℕ) (vq : List ℕ × List ℕ) (x : ℕ)
    (h : x ∈ (scanFold l vq).1) : x ∈ vq.1 ∨ x ∈ (scanFold l vq).2 := by
  induction l generalizing vq with
  | nil => exact Or.inl (by rwa [scanFold_nil] at h)
  | cons nb l ih =>
    rw [scanFold_cons] at h ⊢
    by_cases hm : nb ∈ vq.1
    · rw [if_pos hm] at h ⊢
      exact ih vq h
    · rw [if_neg hm] at h ⊢
      rcases ih (vq.1 ++ [nb], vq.2 ++ [nb]) h with h' | h'
      · rcases List.mem_append.mp h' with h'' | h''
        · exact Or.inl h''
        · simp at h''
          subst h''
          exact Or.inr (scanFold_sub_snd l _ x (List.mem_append_right _ (by simp)))
      · exact Or.inr h'

theorem scanFold_length (l : List ℕ) (vq : List ℕ × List ℕ) :
    (scanFold l vq).2.length + vq.1.length =
      vq.2.length + (scanFold l vq).1.length := by
  induction l generalizing vq with
  | nil => simp [scanFold_nil, Nat.add_comm]
  | cons nb l ih =>
    rw [scanFold_cons]
    by_cases hm : nb ∈ vq.1
    · rw [if_pos hm]; exact ih vq
    · rw [if_neg hm]
      have := ih (vq.1 ++ [nb], vq.2 ++ [nb])
      simp only [List.length_append, List.length_singleton] at this ⊢
      omega

theorem scanFold_nodup (l : List ℕ) (vq : List ℕ × List ℕ)
    (h : vq.1.Nodup) : (scanFold l vq).1.Nodup := by
  induction l generalizing vq with
  | nil => rwa [scanFold_nil]
  | cons nb l ih =>
    rw [scanFold_cons]
    by_cases hm : nb ∈ vq.1
    · rw [if_pos hm]; exact ih vq h
    · rw [if_neg hm]
      refine ih _ ?_
      simp [List.nodup_append, h, hm]

theorem bfsAux_mono (adj : ℕ → List ℕ) (fuel : ℕ) :
    ∀ (visited queue : List ℕ) (x : ℕ), x ∈ visited →
      x ∈ bfsAux adj fuel visited queue := by
  induction fuel with
  | zero => intro visited queue x hx; exact hx
  | succ fuel ih =>
    intro visited queue x hx
    cases queue with
    | nil => exact hx
    | cons cur rest =>
      show x ∈ bfsAux adj fuel
        (bfsScan adj cur (visited, rest)).1 (bfsScan adj cur (visited, rest)).2
      refine ih _ _ x ?_
      rw [bfsScan_eq_scanFold]
      exact scanFold_sub_fst _ _ x hx

theorem bfsAux_sound (adj : ℕ → List ℕ) (s : ℕ) (fuel : ℕ) :
    ∀ (visited queue : List ℕ),
      (∀ x ∈ visited, Reach adj s x) → (∀ x ∈ queue, Reach adj s x) →
      ∀ x ∈ bfsAux adj fuel visited queue, Reach adj s x := by
  induction fuel with
  | zero => intro visited queue hv hq x hx; exact hv x hx
  | succ fuel ih =>
    intro visited queue hv hq x hx
    cases queue with
    | nil => exact hv x hx
    | cons cur rest =>
      have hcur : Reach adj s cur := hq cur (List.mem_cons_self _ _)
      revert hx
      show x ∈ bfsAux adj fuel
        (bfsScan adj cur (visited, rest)).1 (bfsScan adj cur (visited, rest)).2 →
        Reach adj s x
      rw [bfsScan_eq_scanFold]
      intro hx
      refine ih _ _ ?_ ?_ x hx
      · intro y hy
        rcases scanFold_mem_fst _ _ y hy with h' | h'
        · exact hv y h'
        · exact Reach.step hcur h'
      · intro y hy
        rcases scanFold_mem_snd _ _ y hy with h' | h'
        · exact hq y (List.mem_cons_of_mem _ h')
        · exact Reach.step hcur h'

theorem bfsAux_closed (adj : ℕ → List ℕ) (S : Finset ℕ)
    (hadjS : ∀ u v, v ∈ adj u → v ∈ S) (fuel : ℕ) :
    ∀ (visited queue : List ℕ),
      visited.Nodup →
      (∀ x ∈ visited, x ∈ S) →
      (∀ x ∈ queue, x ∈ visited) →
      (∀ u ∈ visited, (∀ v ∈ adj u, v ∈ visited) ∨ u ∈ queue) →
      queue.length + (S.card - visited.length) ≤ fuel →
      ∀ u ∈ bfsAux adj fuel visited queue, ∀ v ∈ adj u,
        v ∈ bfsAux adj fuel visited queue := by
  induction fuel with
  | zero =>
    intro visited queue hnd hvS hqv hInv hfuel u hu v hv
    have hq0 : queue = [] := by
      cases queue with
      | nil => rfl
      | cons a l => simp at hfuel
    subst hq0
    rcases hInv u hu with hcl | hq
    · exact hcl v hv
    · simp at hq
  | succ fuel ih =>
    intro visited queue hnd hvS hqv hInv hfuel u hu v hv
    cases queue with
    | nil =>
      rcases hInv u hu with hcl | hq
      · exact hcl v hv
      · simp at hq
    | cons cur rest =>
      revert hu
      show u ∈ bfsAux adj fuel
        (bfsScan adj cur (visited, rest)).1 (bfsScan adj cur (visited, rest)).2 →
        v ∈ bfsAux adj (fuel + 1) visited (cur :: rest)
      show u ∈ bfsAux adj fuel
        (bfsScan adj cur (visited, rest)).1 (bfsScan adj cur (visited, rest)).2 →
        v ∈ bfsAux adj fuel
          (bfsScan adj cur (visited, rest)).1 (bfsScan adj cur (visited, rest)).2
      rw [bfsScan_eq_scanFold]
      intro hu
      set v' := (scanFold (adj cur) (visited, rest)).1 with hv'def
      set q' := (scanFold (adj cur) (visited, rest)).2 with hq'def
      have hnd' : v'.Nodup := scanFold_nodup _ _ hnd
      have hvS' : ∀ x ∈ v', x ∈ S := by
        intro x hx
        rcases scanFold_mem_fst _ _ x hx with h' | h'
        · exact hvS x h'
        · exact hadjS cur x h'
      have hqv' : ∀ x ∈ q', x ∈ v' := by
        refine scanFold_queue_sub_visited _ _ ?_
        intro x hx
        exact hqv x (List.mem_cons_of_mem _ hx)
      have hInv' : ∀ w ∈ v', (∀ z ∈ adj w, z ∈ v') ∨ w ∈ q' := by
        intro w hw
        rcases scanFold_new_in_queue _ _ w hw with hwold | hwq
        · rcases hInv w hwold with hcl | hq
          · exact Or.inl (fun z hz => scanFold_sub_fst _ _ z (hcl z hz))
          · rcases List.mem_cons.mp hq with hwc | hwr
            · subst hwc
              exact Or.inl (fun z hz => scanFold_all_in_fst _ _ z hz)
            · exact Or.inr (scanFold_sub_snd _ _ w hwr)
        · exact Or.inr hwq
      have hlen : q'.length + visited.length = rest.length + v'.length :=
        scanFold_length _ _
      have hvlen : visited.length ≤ v'.length := by
        obtain ⟨ext, hext⟩ := scanFold_fst_append (adj cur) (visited, rest)
        rw [← hv'def] at hext
        rw [hext]
        simp
      have hv'card : v'.length ≤ S.card := by
        have h1 : v'.toFinset ⊆ S := by
          intro x hx
          exact hvS' x (List.mem_toFinset.mp hx)
        have h2 := Finset.card_le_card h1
        rwa [List.toFinset_card_of_nodup hnd'] at h2
      have hfuel' : q'.length + (S.card - v'.length) ≤ fuel := by
        simp only [List.length_cons] at hfuel
        omega
      exact ih v' q' hnd' hvS' hqv' hInv' hfuel' u hu v hv

/-- The BFS from a seed computes exactly the set of nodes reachable
from it, provided all adjacency lists point below `n`. -/
theorem mem_bfsFrom (adj : ℕ → List ℕ) (n : ℕ)
    (hadjn : ∀ u v, v ∈ adj u → v < n) (s : ℕ) (u : ℕ) :
    u ∈ bfsFrom adj n s ↔ Reach adj s u := by
  have hadjS : ∀ u v, v ∈ adj u → v ∈ insert s (Finset.range n) := by
    intro u v hv
    exact Finset.mem_insert_of_mem (Finset.mem_range.mpr (hadjn u v hv))
  constructor
  · intro hu
    refine bfsAux_sound adj s (n + 1) [s] [s] ?_ ?_ u hu
    · intro x hx
      simp at hx
      subst hx
      exact Reach.refl
    · intro x hx
      simp at hx
      subst hx
      exact Reach.refl
  · intro hr
    have hs : s ∈ bfsFrom adj n s :=
      bfsAux_mono adj (n + 1) [s] [s] s (by simp)
    have hclosed := bfsAux_closed adj (insert s (Finset.range n)) hadjS (n + 1)
      [s] [s] (by simp) (by simp) (by simp)
      (by intro u hu; simp at hu; subst hu; exact Or.inr (by simp))
      (by
        have hcard : (insert s (Finset.range n)).card ≤ n + 1 := by
          have := Finset.card_insert_le s (Finset.range n)
          simpa [Finset.card_range] using this
        simp
        omega)
    exact Reach.ind_closed (fun x => x ∈ bfsFrom adj n s) hclosed hs hr

/-! ### Union of reachable sets over the must-have seeds
(network-view.js lines 109–141) -/

/-- The loop `for (const idx of visited) reachable.add(idx)` — insertion-ordered
set union. -/
def setUnion (acc : List ℕ) (l : List ℕ) : List ℕ :=
  l.foldl (fun acc x => if x ∈ acc then acc else acc ++ [x]) acc

theorem mem_setUnion (acc l : List ℕ) (x : ℕ) :
    x ∈ setUnion acc l ↔ x ∈ acc ∨ x ∈ l := by
  unfold setUnion
  induction l generalizing acc with
  | nil => simp
  | cons a l ih =>
    simp only [List.foldl_cons]
    by_cases h : a ∈ acc
    · rw [if_pos h, ih]
      constructor
      · rintro (h' | h')
        · exact Or.inl h'
        · exact Or.inr (List.mem_cons_of_mem _ h')
      · rintro (h' | h')
        · exact Or.inl h'
        · rcases List.mem_cons.mp h' with h'' | h''
          · subst h''; exact Or.inl h
          · exact Or.inr h''
    · rw [if_neg h, ih]
      simp only [List.mem_append, List.mem_singleton, List.mem_cons]
      tauto

theorem setUnion_nodup (acc l : List ℕ) (h : acc.Nodup) : (setUnion acc l).Nodup := by
  unfold setUnion
  induction l generalizing acc with
  | nil => exact h
  | cons a l ih =>
    simp only [List.foldl_cons]
    by_cases hm : a ∈ acc
    · rw [if_pos hm]; exact ih acc h
    · rw [if_neg hm]
      exact ih _ (by simp [List.nodup_append, h, hm])

/-- The outer loop over `validMustHave`: BFS from each seed not already
reached, accumulating the union (`reachable` in the source). -/
def reachableSet (adj : ℕ → List ℕ) (n : ℕ) (seeds : List ℕ) : List ℕ :=
  seeds.foldl
    (fun reach s => if s ∈ reach then reach else setUnion reach (bfsFrom adj n s)) []

theorem reachableSet_fold (adj : ℕ → List ℕ) (n : ℕ)
    (hadjn : ∀ u v, v ∈ adj u → v < n) (seeds : List ℕ) :
    ∀ (init : List ℕ) (P : ℕ → Prop),
      (∀ u, u ∈ init ↔ P u) →
      (∀ x u, P x → Reach adj x u → P u) →
      ∀ u, u ∈ seeds.foldl
          (fun reach s => if s ∈ reach then reach else setUnion reach (bfsFrom adj n s))
          init ↔ (P u ∨ ∃ s ∈ seeds, Reach adj s u) := by
  induction seeds with
  | nil =>
    intro init P hinit hP u
    simp only [List.foldl_nil, List.not_mem_nil]
    rw [hinit]
    simp
  | cons s rest ih =>
    intro init P hinit hP u
    simp only [List.foldl_cons]
    by_cases hs : s ∈ init
    · rw [if_pos hs]
      rw [ih init P hinit hP u]
      have hPs : P s := (hinit s).mp hs
      constructor
      · rintro (h | ⟨s', hs', hr⟩)
        · exact Or.inl h
        · exact Or.inr ⟨s', List.mem_cons_of_mem _ hs', hr⟩
      · rintro (h | ⟨s', hs', hr⟩)
        · exact Or.inl h
        · rcases List.mem_cons.mp hs' with h' | h'
          · subst h'
            exact Or.inl (hP s' u hPs hr)
          · exact Or.inr ⟨s', h', hr⟩
    · rw [if_neg hs]
      have hinit' : ∀ u, u ∈ setUnion init (bfsFrom adj n s) ↔ (P u ∨ Reach adj s u) := by
        intro u
        rw [mem_setUnion, hinit, mem_bfsFrom adj n hadjn s u]
      have hP' : ∀ x u, (P x ∨ Reach adj s x) → Reach adj x u → (P u ∨ Reach adj s u) := by
        rintro x u (hx | hx) hr
        · exact Or.inl (hP x u hx hr)
        · exact Or.inr (Reach.trans hx hr)
      rw [ih _ _ hinit' hP' u]
      constructor
      · rintro ((h | h) | ⟨s', hs', hr⟩)
        · exact Or.inl h
        · exact Or.inr ⟨s, List.mem_cons_self _ _, h⟩
        · exact Or.inr ⟨s', List.mem_cons_of_mem _ hs', hr⟩
      · rintro (h | ⟨s', hs', hr⟩)
        · exact Or.inl (Or.inl h)
        · rcases List.mem_cons.mp hs' with h' | h'
          · subst h'
            exact Or.inl (Or.inr hr)
          · exact Or.inr ⟨s', h', hr⟩

theorem mem_reachableSet (adj : ℕ → List ℕ) (n : ℕ)
    (hadjn : ∀ u v, v ∈ adj u → v < n) (seeds : List ℕ) (u : ℕ) :
    u ∈ reachableSet adj n seeds ↔ ∃ s ∈ seeds, Reach adj s u := by
  unfold reachableSet
  rw [reachableSet_fold adj n hadjn seeds [] (fun _ => False) (by simp) (by simp) u]
  simp

theorem reachableSet_nodup (adj : ℕ → List ℕ) (n : ℕ) (seeds : List ℕ) :
    (reachableSet adj n seeds).Nodup := by
  unfold reachableSet
  have : ∀ (init : List ℕ), init.Nodup →
      (seeds.foldl
        (fun reach s => if s ∈ reach then reach else setUnion reach (bfsFrom adj n s))
        init).Nodup := by
    induction seeds with
    | nil => exact fun init h => h
    | cons s rest ih =>
      intro init h
      simp only [List.foldl_cons]
      by_cases hs : s ∈ init
      · rw [if_pos hs]; exact ih init h
      · rw [if_neg hs]; exact ih _ (setUnion_nodup _ _ h)
  exact this [] (by simp)

/-! ### Connected-component extraction (network-view.js lines 143–176) -/

/-- One entry of the `components` array pushed by the source. -/
structure Comp where
  id : ℕ
  indices : List ℕ
  tickers : List String
  size : ℕ
  containsMustHave : Bool
deriving Repr, DecidableEq

/-- Assignment `componentOf[k] = c` (the array is initialised to `-1`, modelled as
`none`). -/
def updO (f : ℕ → Option ℕ) (k c : ℕ) : ℕ → Option ℕ :=
  fun x => if x = k then some c else f x

/-- The inner neighbour loop of the component BFS: unassigned
neighbours get the current component id and are enqueued. -/
def assignScan (adj : ℕ → List ℕ) (cid cur : ℕ)
    (aq : (ℕ → Option ℕ) × List ℕ) : (ℕ → Option ℕ) × List ℕ :=
  (adj cur).foldl
    (fun aq nb => if aq.1 nb = none then (updO aq.1 nb cid, aq.2 ++ [nb]) else aq) aq

/-- The `while (queue.length > 0)` loop of the component BFS, with
fuel; `comp.push(current)` is the `acc ++ [cur]`. -/
def compBfsAux (adj : ℕ → List ℕ) (cid : ℕ) :
    ℕ → (ℕ → Option ℕ) → List ℕ → List ℕ → List ℕ × (ℕ → Option ℕ)
  | 0, asg, _, acc => (acc, asg)
  | _ + 1, asg, [], acc => (acc, asg)
  | fuel + 1, asg, cur :: rest, acc =>
    let aq := assignScan adj cid cur (asg, rest)
    compBfsAux adj cid fuel aq.1 aq.2 (acc ++ [cur])

/-- The object pushed onto `components` for one finished BFS. -/
def mkComp (d : CorrData) (vmh : List String) (cid : ℕ) (indices : List ℕ) : Comp :=
  { id := cid
    indices := indices
    tickers := indices.map (tickerAt d)
    size := indices.length
    containsMustHave := indices.any (fun idx => vmh.contains (tickerAt d idx)) }

/-- One iteration of `for (let i = 0; i < n; i++)`: skip assigned or
isolated nodes, otherwise run a BFS and push the component.  The
running `componentId` always equals the number of components pushed so
far, so it is represented by `st.1.length`. -/
def compStep (d : CorrData) (adj : ℕ → List ℕ) (vmh : List String) (n : ℕ)
    (st : List Comp × (ℕ → Option ℕ)) (i : ℕ) : List Comp × (ℕ → Option ℕ) :=
  if (st.2 i).isSome then st
  else if adj i = [] then st
  else
    let cid := st.1.length
    let r := compBfsAux adj cid (n + 1) (updO st.2 i cid) [i] []
    (st.1 ++ [mkComp d vmh cid r.1], r.2)

/-- State of the component loop after scanning nodes `0 .. k-1`. -/
def componentsState (d : CorrData) (adj : ℕ → List ℕ) (vmh : List String)
    (n k : ℕ) : List Comp × (ℕ → Option ℕ) :=
  (List.range k).foldl (compStep d adj vmh n) ([], fun _ => none)

/-- The full (unsorted, discovery-ordered) component list. -/
def componentsOf (d : CorrData) (adj : ℕ → List ℕ) (vmh : List String)
    (n : ℕ) : List Comp :=
  (componentsState d adj vmh n n).1

/-- The comparator of `components.sort(...)` (lines 179–182), as the
"may precede" boolean relation: `a` may stay before `b` iff the JS
comparator returns `≤ 0` on `(a, b)`.  `Array.prototype.sort` is
required to be stable, so the sort is modelled by Lean's stable
`mergeSort` with this relation. -/
def compLE (a b : Comp) : Bool :=
  if a.containsMustHave != b.containsMustHave then a.containsMustHave
  else decide (b.size ≤ a.size)

def sortComponents (comps : List Comp) : List Comp :=
  comps.mergeSort compLE

/-- The result object of `detectCluster`.  The JS success object also
echoes `threshold`, `totalNodes` and `nodesAboveThreshold`, which no
claim mentions; the error object carries no `validMustHave` field,
modelled here as the empty list (which is what `validMustHave`
evaluates to on that branch). -/
structure ClusterResult where
  clusterTickers : List String
  components : List Comp
  validMustHave : List String
  error : Option String
deriving Repr, DecidableEq

/-- The indices of the valid must-have tickers, as looked up via
`tickerIndex[ticker]` in the BFS loop. -/
def seedIndices (d : CorrData) (vmh : List String) : List ℕ :=
  vmh.filterMap (tickerIndex d.tickers)

/-- The adjacency lists built by `detectCluster` (its local `adj`). -/
def clusterAdj (d : CorrData) (th : ℚ) : ℕ → List ℕ :=
  buildAdj d.tickers.length d.matrix th

/-- The `reachable` set accumulated by `detectCluster`. -/
def clusterReach (d : CorrData) (mh : List String) (th : ℚ) : List ℕ :=
  reachableSet (clusterAdj d th) d.tickers.length
    (seedIndices d (validMustHave d mh))

/-- The (discovery-ordered) `components` array of `detectCluster`. -/
def clusterComps (d : CorrData) (mh : List String) (th : ℚ) : List Comp :=
  componentsOf d (clusterAdj d th) (validMustHave d mh) d.tickers.length

/-- The function `detectCluster(corrData, mustHaveTickers, threshold)`
(network-view.js lines 88–192). -/
def detectCluster (d : CorrData) (mh : List String) (th : ℚ) : ClusterResult :=
  if validMustHave d mh = [] then
    { clusterTickers := []
      components := []
      validMustHave := []
      error := some "None of the must-have tickers found in data" }
  else
    { clusterTickers :=
        ((clusterReach d mh th).map (tickerAt d)).mergeSort (fun a b => decide (a ≤ b))
      components := sortComponents (clusterComps d mh th)
      validMustHave := validMustHave d mh
      error := none }

/-! ### Latency-sampler reductions

The sampling loops themselves are DOM/`requestAnimationFrame`-driven;
the embedding takes the collected latency and frame-timestamp sample
lists as parameters and models the pure reduction performed when
`i >= samples`, together with the zero-element early return.
`total` is `rects.size()` (the number of elements available). -/

/-- Record `{p50, p95, fps}` as produced by the brush benchmarks.  `fps` holds
the `Math.round`ed value. -/
structure PerfStats where
  p50 : ℚ
  p95 : ℚ
  fps : ℚ
deriving Repr, DecidableEq

/-- Record `{p50, p95}` as produced by `measureHoverLatency` (no fps field). -/
structure HoverStats where
  p50 : ℚ
  p95 : ℚ
deriving Repr, DecidableEq

/-- The function `Math.round` (round half towards positive infinity). -/
def jsRound (x : ℚ) : ℚ := ((⌊x + 1 / 2⌋ : ℤ) : ℚ)

/-- The call `latencies.sort((a, b) => a - b)` — ascending numeric sort. -/
def sortLatencies (l : List ℚ) : List ℚ :=
  l.mergeSort (fun a b => decide (a ≤ b))

/-- The common final reduction of the brush benchmarks:
`latencies[Math.floor(len * 0.5)]`, `latencies[Math.floor(len * 0.95)]`
on the ascending-sorted list, and
`1000 / ((stamps[last] - stamps[0]) / (stamps.length - 1))` rounded,
or `0` when fewer than two frame timestamps exist.  For natural `len`,
`Math.floor(len * 0.5) = len * 50 / 100` and
`Math.floor(len * 0.95) = len * 95 / 100` exactly (0.5 is an exact
double and the rounding error of `len * 0.95` is far below the
distance to the nearest integer boundary). -/
def brushStats (latencies stamps : List ℚ) : PerfStats :=
  let sorted := sortLatencies latencies
  let fps : ℚ :=
    if 1 < stamps.length then
      1000 / ((stamps.getLast?.getD 0 - stamps.head?.getD 0) /
        ((stamps.length - 1 : ℕ) : ℚ))
    else 0
  { p50 := sorted.getD (sorted.length * 50 / 100) 0
    p95 := sorted.getD (sorted.length * 95 / 100) 0
    fps := jsRound fps }

/-- The final reduction of `measureHoverLatency` (p50/p95 only). -/
def hoverStatsOf (latencies : List ℚ) : HoverStats :=
  let sorted := sortLatencies latencies
  { p50 := sorted.getD (sorted.length * 50 / 100) 0
    p95 := sorted.getD (sorted.length * 95 / 100) 0 }

/-- A JS promise of one of the samplers can resolve with a bare number
(`resolve(0)`) or with a stats record; the dynamic type is modelled as
a sum. -/
inductive MeasureOutcome where
  | scalar : ℚ → MeasureOutcome
  | hover : HoverStats → MeasureOutcome
  | stats : PerfStats → MeasureOutcome
deriving Repr, DecidableEq

/-- Model of `measureBrushLatency` (matrix.js lines 74–119): on an empty target
it resolves the bare number `0`. -/
def measureBrushLatencyModel (total : ℕ) (latencies stamps : List ℚ) :
    MeasureOutcome :=
  if total = 0 then .scalar 0 else .stats (brushStats latencies stamps)

/-- Model of `measureHoverLatency` (matrix.js lines 33–72): on an empty target
it resolves the bare number `0`. -/
def measureHoverLatencyModel (total : ℕ) (latencies : List ℚ) :
    MeasureOutcome :=
  if total = 0 then .scalar 0 else .hover (hoverStatsOf latencies)

/-- Model of `MatrixEnriched.measureBrush` (matrix-enriched.js lines 431–476):
on an empty target it resolves `{p50: 0, p95: 0, fps: 0}`. -/
def measureBrushEnrichedModel (total : ℕ) (latencies stamps : List ℚ) :
    MeasureOutcome :=
  if total = 0 then .stats ⟨0, 0, 0⟩ else .stats (brushStats latencies stamps)

/-- Model of `PrismDynamic.measureBrush` (lines 211–246 of the dynamic prism
script): on an empty target it resolves `{p50: 0, p95: 0, fps: 0}`. -/
def measureBrushPrismModel (total : ℕ) (latencies stamps : List ℚ) :
    MeasureOutcome :=
  if total = 0 then .stats ⟨0, 0, 0⟩ else .stats (brushStats latencies stamps)

/-! ### Properties of the component BFS -/

/-- Generic form of `assignScan` for induction. -/
def aFold (cid : ℕ) (l : List ℕ) (aq : (ℕ → Option ℕ) × List ℕ) :
    (ℕ → Option ℕ) × List ℕ :=
  l.foldl
    (fun aq nb => if aq.1 nb = none then (updO aq.1 nb cid, aq.2 ++ [nb]) else aq) aq

theorem assignScan_eq_aFold (adj : ℕ → List ℕ) (cid cur : ℕ)
    (aq : (ℕ → Option ℕ) × List ℕ) :
    assignScan adj cid cur aq = aFold cid (adj cur) aq := rfl

theorem aFold_nil (cid : ℕ) (aq : (ℕ → Option ℕ) × List ℕ) :
    aFold cid [] aq = aq := rfl

theorem aFold_cons (cid nb : ℕ) (l : List ℕ) (aq : (ℕ → Option ℕ) × List ℕ) :
    aFold cid (nb :: l) aq =
      aFold cid l (if aq.1 nb = none then (updO aq.1 nb cid, aq.2 ++ [nb]) else aq) := rfl

theorem updO_same (f : ℕ → Option ℕ) (k c : ℕ) : updO f k c k = some c := by
  simp [updO]

theorem updO_ne (f : ℕ → Option ℕ) (k c : ℕ) {x : ℕ} (h : x ≠ k) :
    updO f k c x = f x := by
  simp [updO, h]

theorem aFold_preserve (cid : ℕ) (l : List ℕ) (aq : (ℕ → Option ℕ) × List ℕ)
    (u c : ℕ) (h : aq.1 u = some c) : (aFold cid l aq).1 u = some c := by
  induction l generalizing aq with
  | nil => exact h
  | cons nb l ih =>
    rw [aFold_cons]
    by_cases hn : aq.1 nb = none
    · rw [if_pos hn]
      refine ih _ ?_
      by_cases hu : u = nb
      · subst hu
        rw [h] at hn
        exact absurd hn (by simp)
      · simp only
        rw [updO_ne _ _ _ hu]
        exact h
    · rw [if_neg hn]
      exact ih _ h

theorem aFold_isSome_preserve (cid : ℕ) (l : List ℕ)
    (aq : (ℕ → Option ℕ) × List ℕ) (u : ℕ) (h : (aq.1 u).isSome) :
    ((aFold cid l aq).1 u).isSome := by
  obtain ⟨c, hc⟩ := Option.isSome_iff_exists.mp h
  rw [aFold_preserve cid l aq u c hc]
  simp

theorem aFold_mem_fst (cid : ℕ) (l : List ℕ) (aq : (ℕ → Option ℕ) × List ℕ)
    (u c : ℕ) (h : (aFold cid l aq).1 u = some c) :
    aq.1 u = some c ∨ (c = cid ∧ u ∈ l) := by
  induction l generalizing aq with
  | nil => exact Or.inl h
  | cons nb l ih
    =>
    rw [aFold_cons] at h
    by_cases hn : aq.1 nb = none
    · rw [if_pos hn] at h
      rcases ih _ h with h' | h'
      · simp only at h'
        by_cases hu : u = nb
        · subst hu
          rw [updO_same] at h'
          have : c = cid := by injection h'.symm
          exact Or.inr ⟨this, List.mem_cons_self _ _⟩
        · rw [updO_ne _ _ _ hu] at h'
          exact Or.inl h'
      · exact Or.inr ⟨h'.1, List.mem_cons_of_mem _ h'.2⟩
    · rw [if_neg hn] at h
      rcases ih _ h with h' | h'
      · exact Or.inl h'
      · exact Or.inr ⟨h'.1, List.mem_cons_of_mem _ h'.2⟩

theorem aFold_none (cid : ℕ) (l : List ℕ) (aq : (ℕ → Option ℕ) × List ℕ)
    (u : ℕ) (h : (aFold cid l aq).1 u = none) : aq.1 u = none := by
  cases hu : aq.1 u with
  | none => rfl
  | some c =>
    rw [aFold_preserve cid l aq u c hu] at h
    exact absurd h (by simp)

theorem aFold_mem_snd (cid : ℕ) (l : List ℕ) (aq : (ℕ → Option ℕ) × List ℕ)
    (x : ℕ) (h : x ∈ (aFold cid l aq).2) : x ∈ aq.2 ∨ (x ∈ l ∧ aq.1 x = none) := by
  induction l generalizing aq with
  | nil => exact Or.inl h
  | cons nb l ih =>
    rw [aFold_cons] at h
    by_cases hn : aq.1 nb = none
    · rw [if_pos hn] at h
      rcases ih _ h with h' | h'
      · rcases List.mem_append.mp h' with h'' | h''
        · exact Or.inl h''
        · simp at h''
          subst h''
          exact Or.inr ⟨List.mem_cons_self _ _, hn⟩
      · obtain ⟨hxl, hxn⟩ := h'
        simp only at hxn
        by_cases hx : x = nb
        · subst hx
          exact Or.inr ⟨List.mem_cons_self _ _, hn⟩
        · rw [updO_ne _ _ _ hx] at hxn
          exact Or.inr ⟨List.mem_cons_of_mem _ hxl, hxn⟩
    · rw [if_neg hn] at h
      rcases ih _ h with h' | h'
      · exact Or.inl h'
      · exact Or.inr ⟨List.mem_cons_of_mem _ h'.1, h'.2⟩

theorem aFold_snd_sup (cid : ℕ) (l : List ℕ) (aq : (ℕ → Option ℕ) × List ℕ)
    (x : ℕ) (h : x ∈ aq.2) : x ∈ (aFold cid l aq).2 := by
  induction l generalizing aq with
  | nil => exact h
  | cons nb l ih =>
    rw [aFold_cons]
    by_cases hn : aq.1 nb = none
    · rw [if_pos hn]
      exact ih _ (List.mem_append_left _ h)
    · rw [if_neg hn]
      exact ih _ h

theorem aFold_covers (cid : ℕ) (l : List ℕ) (aq : (ℕ → Option ℕ) × List ℕ)
    (x : ℕ) (h : x ∈ l) : ((aFold cid l aq).1 x).isSome := by
  induction l generalizing aq with
  | nil => simp at h
  | cons nb l ih =>
    rw [aFold_cons]
    rcases List.mem_cons.mp h with h' | h'
    · subst h'
      by_cases hn : aq.1 x = none
      · rw [if_pos hn]
        exact aFold_isSome_preserve cid l _ x (by simp [updO_same])
      · rw [if_neg hn]
        exact aFold_isSome_preserve cid l _ x (Option.ne_none_iff_isSome.mp hn)
    · by_cases hn : aq.1 nb = none
      · rw [if_pos hn]; exact ih _ h'
      · rw [if_neg hn]; exact ih _ h'

theorem aFold_queue_assigned (cid : ℕ) (l : List ℕ)
    (aq : (ℕ → Option ℕ) × List ℕ) (hq : ∀ x ∈ aq.2, aq.1 x = some cid) :
    ∀ x ∈ (aFold cid l aq).2, (aFold cid l aq).1 x = some cid := by
  induction l generalizing aq with
  | nil => exact hq
  | cons nb l ih =>
    rw [aFold_cons]
    by_cases hn : aq.1 nb = none
    · rw [if_pos hn]
      refine ih _ ?_
      intro x hx
      simp only at hx ⊢
      rcases List.mem_append.mp hx with h' | h'
      · by_cases hxn : x = nb
        · subst hxn; exact updO_same _ _ _
        · rw [updO_ne _ _ _ hxn]
          exact hq x h'
      · simp at h'
        subst h'
        exact updO_same _ _ _
    · rw [if_neg hn]
      exact ih _ hq

theorem aFold_new_in_queue (cid : ℕ) (l : List ℕ)
    (aq : (ℕ → Option ℕ) × List ℕ) (u : ℕ)
    (h : (aFold cid l aq).1 u = some cid) :
    aq.1 u = some cid ∨ u ∈ (aFold cid l aq).2 := by
  induction l generalizing aq with
  | nil => exact Or.inl h
  | cons nb l ih =>
    rw [aFold_cons] at h ⊢
    by_cases hn : aq.1 nb = none
    · rw [if_pos hn] at h ⊢
      rcases ih _ h with h' | h'
      · simp only at h'
        by_cases hu : u = nb
        · subst hu
          exact Or.inr (aFold_snd_sup cid l _ u (List.mem_append_right _ (by simp)))
        · rw [updO_ne _ _ _ hu] at h'
          exact Or.inl h'
      · exact Or.inr h'
    · rw [if_neg hn] at h ⊢
      exact ih _ h

theorem aFold_queue_invariant (cid : ℕ) (l : List ℕ)
    (aq : (ℕ → Option ℕ) × List ℕ)
    (hnd : aq.2.Nodup) (has : ∀ x ∈ aq.2, (aq.1 x).isSome) :
    (aFold cid l aq).2.Nodup ∧ (∀ x ∈ (aFold cid l aq).2, ((aFold cid l aq).1 x).isSome) := by
  induction l generalizing aq with
  | nil => exact ⟨hnd, has⟩
  | cons nb l ih =>
    rw [aFold_cons]
    by_cases hn : aq.1 nb = none
    · rw [if_pos hn]
      refine ih _ ?_ ?_
      · simp only
        rw [List.nodup_append]
        refine ⟨hnd, by simp, ?_⟩
        intro x hx
        simp only [List.mem_singleton]
        intro hxnb
        subst hxnb
        have := has x hx
        rw [hn] at this
        exact absurd this (by simp)
      · intro x hx
        simp only at hx ⊢
        rcases List.mem_append.mp hx with h' | h'
        · by_cases hxn : x = nb
          · subst hxn; simp [updO_same]
          · rw [updO_ne _ _ _ hxn]
            exact has x h'
        · simp at h'
          subst h'
          simp [updO_same]
    · rw [if_neg hn]
      exact ih _ hnd has

/-- Number of assigned nodes below `n` (for the fuel argument). -/
def countAsg (n : ℕ) (asg : ℕ → Option ℕ) : ℕ :=
  ((Finset.range n).filter (fun u => (asg u).isSome)).card

theorem countAsg_le (n : ℕ) (asg : ℕ → Option ℕ) : countAsg n asg ≤ n := by
  unfold countAsg
  calc ((Finset.range n).filter (fun u => (asg u).isSome)).card
      ≤ (Finset.range n).card := Finset.card_filter_le _ _
    _ = n := Finset.card_range n

theorem countAsg_mono (n : ℕ) (asg asg' : ℕ → Option ℕ)
    (h : ∀ u, (asg u).isSome → (asg' u).isSome) :
    countAsg n asg ≤ countAsg n asg' := by
  unfold countAsg
  refine Finset.card_le_card ?_
  intro u hu
  simp only [Finset.mem_filter] at hu ⊢
  exact ⟨hu.1, h u hu.2⟩

theorem countAsg_updO (n : ℕ) (asg : ℕ → Option ℕ) (u cid : ℕ)
    (hu : u < n) (hnone : asg u = none) :
    countAsg n (updO asg u cid) = countAsg n asg + 1 := by
  unfold countAsg
  have hset : (Finset.range n).filter (fun x => ((updO asg u cid) x).isSome) =
      insert u ((Finset.range n).filter (fun x => (asg x).isSome)) := by
    ext x
    simp only [Finset.mem_filter, Finset.mem_insert, Finset.mem_range]
    by_cases hx : x = u
    · subst hx
      simp [updO_same, hu]
    · rw [updO_ne _ _ _ hx]
      constructor
      · rintro ⟨h1, h2⟩
        exact Or.inr ⟨h1, h2⟩
      · rintro (h' | ⟨h1, h2⟩)
        · exact absurd h' hx
        · exact ⟨h1, h2⟩
  rw [hset, Finset.card_insert_of_not_mem]
  simp [hnone]

theorem aFold_count (cid : ℕ) (n : ℕ) (l : List ℕ) (hln : ∀ x ∈ l, x < n)
    (aq : (ℕ → Option ℕ) × List ℕ) :
    (aFold cid l aq).2.length + countAsg n aq.1 =
      aq.2.length + countAsg n (aFold cid l aq).1 := by
  induction l generalizing aq with
  | nil => rw [aFold_nil, Nat.add_comm]
  | cons nb l ih =>
    have hnb : nb < n := hln nb (List.mem_cons_self _ _)
    have hl : ∀ x ∈ l, x < n := fun x hx => hln x (List.mem_cons_of_mem _ hx)
    rw [aFold_cons]
    by_cases hn : aq.1 nb = none
    · rw [if_pos hn]
      have := ih hl (updO aq.1 nb cid, aq.2 ++ [nb])
      simp only at this
      rw [countAsg_updO n aq.1 nb cid hnb hn] at this
      simp only [List.length_append, List.length_singleton] at this
      omega
    · rw [if_neg hn]
      exact ih hl aq

theorem compBfs_done (adj : ℕ → List ℕ)
    (hsym : ∀ u v, u ∈ adj v ↔ v ∈ adj u) (cid : ℕ) (asg : ℕ → Option ℕ)
    (acc : List ℕ)
    (p2 : ∀ x ∈ acc, asg x = some cid)
    (p7 : ∀ u c, asg u = some c → c ≠ cid → ∀ v ∈ adj u, asg v = some c)
    (p11 : ∀ u ∈ acc, ∀ v ∈ adj u, (asg v).isSome) :
    ∀ u ∈ acc, ∀ v ∈ adj u, asg v = some cid := by
  intro u hu v hv
  obtain ⟨c, hc⟩ := Option.isSome_iff_exists.mp (p11 u hu v hv)
  by_cases hcc : c = cid
  · subst hcc; exact hc
  · have hvu : u ∈ adj v := (hsym u v).mpr hv
    have := p7 v c hc hcc u hvu
    rw [p2 u hu] at this
    have : cid = c := by injection this
    exact absurd this.symm hcc

theorem compBfsAux_spec (adj : ℕ → List ℕ) (n : ℕ)
    (hadjn : ∀ u v, v ∈ adj u → v < n)
    (hsym : ∀ u v, u ∈ adj v ↔ v ∈ adj u)
    (cid s : ℕ) (fuel : ℕ) :
    ∀ (asg : ℕ → Option ℕ) (queue acc : List ℕ)
      (comp : List ℕ) (asg' : ℕ → Option ℕ),
      compBfsAux adj cid fuel asg queue acc = (comp, asg') →
      (∀ x ∈ queue, asg x = some cid) →
      (∀ x ∈ acc, asg x = some cid) →
      (∀ x, asg x = some cid → x ∈ acc ∨ x ∈ queue) →
      acc.Nodup → queue.Nodup →
      (∀ x ∈ acc, x ∉ queue) →
      (∀ u c, asg u = some c → c ≠ cid → ∀ v ∈ adj u, asg v = some c) →
      (∀ u, (asg u).isSome → u < n) →
      (∀ x, asg x = some cid → Reach adj s x) →
      queue.length + (n - countAsg n asg) ≤ fuel →
      (∀ u ∈ acc, ∀ v ∈ adj u, (asg v).isSome) →
      (∀ x, x ∈ comp ↔ asg' x = some cid) ∧
      comp.Nodup ∧
      (∀ u c, asg u = some c → asg' u = some c) ∧
      (∀ u c, asg' u = some c → c ≠ cid → asg u = some c) ∧
      (∀ u ∈ comp, ∀ v ∈ adj u, asg' v = some cid) ∧
      (∀ u, (asg' u).isSome → u < n) ∧
      (∀ x, asg' x = some cid → Reach adj s x) := by
  induction fuel with
  | zero =>
    intro asg queue acc comp asg' heq p1 p2 p3 p4 p5 p6 p7 p8 p9 p10 p11
    have hq0 : queue = [] := by
      cases queue with
      | nil => rfl
      | cons a l => simp at p10
    subst hq0
    have heq' : (acc, asg) = (comp, asg') := heq
    have hc : acc = comp := congrArg Prod.fst heq'
    have ha : asg = asg' := congrArg Prod.snd heq'
    subst hc; subst ha
    refine ⟨?_, p4, fun u c h => h, fun u c h _ => h, ?_, p8, p9⟩
    · intro x
      constructor
      · exact p2 x
      · intro h
        rcases p3 x h with h' | h'
        · exact h'
        · simp at h'
    · exact compBfs_done adj hsym cid asg _ p2 p7 p11
  | succ fuel ih =>
    intro asg queue acc comp asg' heq p1 p2 p3 p4 p5 p6 p7 p8 p9 p10 p11
    cases queue with
    | nil =>
      have heq' : (acc, asg) = (comp, asg') := heq
      have hc : acc = comp := congrArg Prod.fst heq'
      have ha : asg = asg' := congrArg Prod.snd heq'
      subst hc; subst ha
      refine ⟨?_, p4, fun u c h => h, fun u c h _ => h, ?_, p8, p9⟩
      · intro x
        constructor
        · exact p2 x
        · intro h
          rcases p3 x h with h' | h'
          · exact h'
          · simp at h'
      · exact compBfs_done adj hsym cid asg _ p2 p7 p11
    | cons cur rest =>
      have heq' : compBfsAux adj cid fuel
          (assignScan adj cid cur (asg, rest)).1
          (assignScan adj cid cur (asg, rest)).2 (acc ++ [cur]) = (comp, asg') := heq
      rw [assignScan_eq_aFold] at heq'
      set aq := aFold cid (adj cur) (asg, rest) with haq
      have hcur : asg cur = some cid := p1 cur (List.mem_cons_self _ _)
      have hrest1 : ∀ x ∈ rest, asg x = some cid :=
        fun x hx => p1 x (List.mem_cons_of_mem _ hx)
      -- preconditions for the recursive state
      have q1 : ∀ x ∈ aq.2, aq.1 x = some cid := by
        refine aFold_queue_assigned cid (adj cur) (asg, rest) ?_
        exact hrest1
      have q2 : ∀ x ∈ acc ++ [cur], aq.1 x = some cid := by
        intro x hx
        rcases List.mem_append.mp hx with h' | h'
        · exact aFold_preserve cid _ _ x cid (p2 x h')
        · simp at h'
          subst h'
          exact aFold_preserve cid _ _ x cid hcur
      have q3 : ∀ x, aq.1 x = some cid → x ∈ acc ++ [cur] ∨ x ∈ aq.2 := by
        intro x hx
        rcases aFold_new_in_queue cid _ _ x hx with h' | h'
        · rcases p3 x h' with h'' | h''
          · exact Or.inl (List.mem_append_left _ h'')
          · rcases List.mem_cons.mp h'' with h3 | h3
            · subst h3
              exact Or.inl (List.mem_append_right _ (by simp))
            · exact Or.inr (aFold_snd_sup cid _ _ x h3)
        · exact Or.inr h'
      have q4 : (acc ++ [cur]).Nodup := by
        rw [List.nodup_append]
        refine ⟨p4, by simp, ?_⟩
        intro x hx
        simp only [List.mem_singleton]
        intro hxc
        subst hxc
        exact p6 x hx (List.mem_cons_self _ _)
      have hrestnd : rest.Nodup := (List.nodup_cons.mp p5).2
      have hrestsome : ∀ x ∈ rest, (asg x).isSome := by
        intro x hx
        rw [hrest1 x hx]
        simp
      have q5q : aq.2.Nodup ∧ ∀ x ∈ aq.2, (aq.1 x).isSome :=
        aFold_queue_invariant cid (adj cur) (asg, rest) hrestnd hrestsome
      have q6 : ∀ x ∈ acc ++ [cur], x ∉ aq.2 := by
        intro x hx hxq
        rcases aFold_mem_snd cid _ _ x hxq with h' | h'
        · rcases List.mem_append.mp hx with h'' | h''
          · exact p6 x h'' (List.mem_cons_of_mem _ h')
          · simp at h''
            subst h''
            exact (List.nodup_cons.mp p5).1 h'
        · have hnone : asg x = none := h'.2
          rcases List.mem_append.mp hx with h'' | h''
          · rw [p2 x h''] at hnone
            exact absurd hnone (by simp)
          · simp at h''
            subst h''
            rw [hcur] at hnone
            exact absurd hnone (by simp)
      have q7 : ∀ u c, aq.1 u = some c → c ≠ cid → ∀ v ∈ adj u, aq.1 v = some c := by
        intro u c hu hc v hv
        rcases aFold_mem_fst cid _ _ u c hu with h' | h'
        · exact aFold_preserve cid _ _ v c (p7 u c h' hc v hv)
        · exact absurd h'.1 hc
      have q8 : ∀ u, (aq.1 u).isSome → u < n := by
        intro u hu
        obtain ⟨c, hc⟩ := Option.isSome_iff_exists.mp hu
        rcases aFold_mem_fst cid _ _ u c hc with h' | h'
        · exact p8 u (Option.isSome_iff_exists.mpr ⟨c, h'⟩)
        · exact hadjn cur u h'.2
      have q9 : ∀ x, aq.1 x = some cid → Reach adj s x := by
        intro x hx
        rcases aFold_mem_fst cid _ _ x cid hx with h' | h'
        · exact p9 x h'
        · exact Reach.step (p9 cur hcur) h'.2
      have q10 : aq.2.length + (n - countAsg n aq.1) ≤ fuel := by
        have hcount := aFold_count cid n (adj cur) (fun x hx => hadjn cur x hx) (asg, rest)
        rw [← haq] at hcount
        simp only at hcount
        have h1 : countAsg n asg ≤ countAsg n aq.1 :=
          countAsg_mono n _ _ (fun u hu => aFold_isSome_preserve cid _ _ u hu)
        have h2 : countAsg n aq.1 ≤ n := countAsg_le n aq.1
        simp only [List.length_cons] at p10
        omega
      have q11 : ∀ u ∈ acc ++ [cur], ∀ v ∈ adj u, (aq.1 v).isSome := by
        intro u hu v hv
        rcases List.mem_append.mp hu with h' | h'
        · exact aFold_isSome_preserve cid _ _ v (p11 u h' v hv)
        · simp at h'
          subst h'
          exact aFold_covers cid _ _ v hv
      obtain ⟨c1, c2, c3, c4, c5, c6, c7⟩ :=
        ih aq.1 aq.2 (acc ++ [cur]) comp asg' heq' q1 q2 q3 q4 q5q.1 q6 q7 q8 q9 q10 q11
      refine ⟨c1, c2, ?_, ?_, c5, c6, c7⟩
      · intro u c hu
        exact c3 u c (aFold_preserve cid _ _ u c hu)
      · intro u c hu hc
        have := c4 u c hu hc
        rcases aFold_mem_fst cid _ _ u c this with h' | h'
        · exact h'
        · exact absurd h'.1 hc

/-- Invariant of the outer component loop after scanning nodes
`0 .. k-1`:  ids are positions; the assignment array is the exact
membership map of the component list; components are duplicate-free,
closed under adjacency, mutually reachable, free of isolated nodes;
every scanned node of nonzero degree is assigned; components carry
their least member, which is their BFS start, and appear in increasing
least-member (= discovery) order; the derived `Comp` fields are as
constructed. -/
def OuterInv (d : CorrData) (adj : ℕ → List ℕ) (vmh : List String) (n k : ℕ)
    (comps : List Comp) (asg : ℕ → Option ℕ) : Prop :=
  (∀ j comp, comps.get? j = some comp → comp.id = j) ∧
  (∀ u c, asg u = some c ↔ ∃ comp, comps.get? c = some comp ∧ u ∈ comp.indices) ∧
  (∀ comp ∈ comps, comp.indices.Nodup) ∧
  (∀ u c, asg u = some c → ∀ v ∈ adj u, asg v = some c) ∧
  (∀ comp ∈ comps, ∀ u ∈ comp.indices, ∀ v ∈ comp.indices, Reach adj u v) ∧
  (∀ comp ∈ comps, ∀ u ∈ comp.indices, adj u ≠ []) ∧
  (∀ u, u < k → adj u ≠ [] → (asg u).isSome) ∧
  (∀ u, (asg u).isSome → u < n) ∧
  (∀ j comp, comps.get? j = some comp →
    ∃ s, s ∈ comp.indices ∧ (∀ u ∈ comp.indices, s ≤ u) ∧ s < k) ∧
  (∀ j1 j2 comp1 comp2, comps.get? j1 = some comp1 → comps.get? j2 = some comp2 →
    j1 < j2 → ∀ s1 ∈ comp1.indices, (∀ u ∈ comp1.indices, s1 ≤ u) →
      ∀ s2 ∈ comp2.indices, (∀ u ∈ comp2.indices, s2 ≤ u) → s1 < s2) ∧
  (∀ comp ∈ comps, comp.tickers = comp.indices.map (tickerAt d) ∧
    comp.size = comp.indices.length ∧
    comp.containsMustHave = comp.indices.any (fun idx => vmh.contains (tickerAt d idx)))

theorem componentsState_zero (d : CorrData) (adj : ℕ → List ℕ) (vmh : List String)
    (n : ℕ) : componentsState d adj vmh n 0 = ([], fun _ => none) := rfl

theorem componentsState_succ (d : CorrData) (adj : ℕ → List ℕ) (vmh : List String)
    (n k : ℕ) :
    componentsState d adj vmh n (k + 1) =
      compStep d adj vmh n (componentsState d adj vmh n k) k := by
  unfold componentsState
  rw [List.range_succ, List.foldl_append]
  rfl

theorem componentsState_inv (d : CorrData) (adj : ℕ → List ℕ) (vmh : List String)
    (n : ℕ)
    (hadjn : ∀ u v, v ∈ adj u → v < n)
    (hsym : ∀ u v, u ∈ adj v ↔ v ∈ adj u) :
    ∀ k, k ≤ n →
      OuterInv d adj vmh n k
        (componentsState d adj vmh n k).1 (componentsState d adj vmh n k).2 := by
  intro k
  induction k with
  | zero =>
    intro _
    rw [componentsState_zero]
    refine ⟨?_, ?_, ?_, ?_, ?_, ?_, ?_, ?_, ?_, ?_, ?_⟩ <;> simp
  | succ k ih =>
    intro hk1
    have hkn : k < n := hk1
    have hinv := ih (Nat.le_of_lt hkn)
    obtain ⟨o1, o2, o3, o4, o5, o6, o7, o8, o9, o11, o10⟩ := hinv
    rw [componentsState_succ]
    set st := componentsState d adj vmh n k with hst
    unfold compStep
    by_cases hassigned : (st.2 k).isSome
    · rw [if_pos hassigned]
      refine ⟨o1, o2, o3, o4, o5, o6, ?_, o8, ?_, o11, o10⟩
      · intro u hu hadju
        rcases Nat.lt_or_ge u k with h | h
        · exact o7 u h hadju
        · have : u = k := by omega
          subst this
          exact hassigned
      · intro j comp hj
        obtain ⟨s, hs1, hs2, hs3⟩ := o9 j comp hj
        exact ⟨s, hs1, hs2, by omega⟩
    · rw [if_neg hassigned]
      have hnone : st.2 k = none := Option.not_isSome_iff_eq_none.mp hassigned
      by_cases hiso : adj k = []
      · rw [if_pos hiso]
        refine ⟨o1, o2, o3, o4, o5, o6, ?_, o8, ?_, o11, o10⟩
        · intro u hu hadju
          rcases Nat.lt_or_ge u k with h | h
          · exact o7 u h hadju
          · have : u = k := by omega
            subst this
            exact absurd hiso hadju
        · intro j comp hj
          obtain ⟨s, hs1, hs2, hs3⟩ := o9 j comp hj
          exact ⟨s, hs1, hs2, by omega⟩
      · rw [if_neg hiso]
        set cid := st.1.length with hcid
        set asg0 := updO st.2 k cid with hasg0
        obtain ⟨comp, asg', hr⟩ :
            ∃ comp asg', compBfsAux adj cid (n + 1) asg0 [k] [] = (comp, asg') :=
          ⟨_, _, rfl⟩
        -- the value of any pre-existing assignment is < cid
        have hvaluelt : ∀ u c, st.2 u = some c → c < cid := by
          intro u c hu
          obtain ⟨cmp, hcmp, -⟩ := (o2 u c).mp hu
          have := List.get?_eq_some.mp hcmp
          obtain ⟨hlt, -⟩ := this
          exact hlt
        have hne_cid : ∀ u c, st.2 u = some c → c ≠ cid :=
          fun u c hu => Nat.ne_of_lt (hvaluelt u c hu)
        -- preconditions of the BFS spec
        have p1 : ∀ x ∈ [k], asg0 x = some cid := by
          intro x hx
          simp at hx
          subst hx
          exact updO_same _ _ _
        have p2 : ∀ x ∈ ([] : List ℕ), asg0 x = some cid := by simp
        have p3 : ∀ x, asg0 x = some cid → x ∈ ([] : List ℕ) ∨ x ∈ [k] := by
          intro x hx
          by_cases hxk : x = k
          · subst hxk; simp
          · rw [hasg0, updO_ne _ _ _ hxk] at hx
            exact absurd rfl (hne_cid x cid hx)
        have p7 : ∀ u c, asg0 u = some c → c ≠ cid → ∀ v ∈ adj u, asg0 v = some c := by
          intro u c hu hc v hv
          by_cases huk : u = k
          · subst huk
            rw [hasg0, updO_same] at hu
            have : cid = c := by injection hu
            exact absurd this.symm hc
          · rw [hasg0, updO_ne _ _ _ huk] at hu
            have hv' := o4 u c hu v hv
            by_cases hvk : v = k
            · subst hvk
              rw [hnone] at hv'
              exact absurd hv' (by simp)
            · rw [hasg0, updO_ne _ _ _ hvk]
              exact hv'
        have p8 : ∀ u, (asg0 u).isSome → u < n := by
          intro u hu
          by_cases huk : u = k
          · subst huk; exact hkn
          · rw [hasg0, updO_ne _ _ _ huk] at hu
            exact o8 u hu
        have p9 : ∀ x, asg0 x = some cid → Reach adj k x := by
          intro x hx
          rcases p3 x hx with h | h
          · simp at h
          · simp at h
            subst h
            exact Reach.refl
        have p10 : [k].length + (n - countAsg n asg0) ≤ n + 1 := by
          simp only [List.length_singleton]
          omega
        have p11 : ∀ u ∈ ([] : List ℕ), ∀ v ∈ adj u, (asg0 v).isSome := by simp
        obtain ⟨c1, c2, c3, c4, c5, c6, c7⟩ :=
          compBfsAux_spec adj n hadjn hsym cid k (n + 1) asg0 [k] [] comp asg' hr
            p1 p2 p3 (by simp) (by simp) (by simp) p7 p8 p9 p10 p11
        -- facts about the new component
        have hstart_mem : k ∈ comp := by
          rw [c1]
          exact c3 k cid (by rw [hasg0]; exact updO_same _ _ _)
        have hasg'_lift : ∀ u c, st.2 u = some c → asg' u = some c := by
          intro u c hu
          refine c3 u c ?_
          by_cases huk : u = k
          · subst huk
            rw [hnone] at hu
            exact absurd hu (by simp)
          · rw [hasg0, updO_ne _ _ _ huk]
            exact hu
        have hasg'_back : ∀ u c, asg' u = some c → c ≠ cid → st.2 u = some c := by
          intro u c hu hc
          have := c4 u c hu hc
          by_cases huk : u = k
          · subst huk
            rw [hasg0, updO_same] at this
            have : cid = c := by injection this
            exact absurd this.symm hc
          · rw [hasg0, updO_ne _ _ _ huk] at this
            exact this
        have hmem_ge : ∀ u ∈ comp, k ≤ u := by
          intro u hu
          by_contra hlt
          push_neg at hlt
          -- u < k, u in the new component: u has an edge, hence was
          -- already assigned (o7), contradicting membership in the new one
          have hadju : adj u ≠ [] := by
            have hru : Reach adj k u := c7 u ((c1 u).mp hu)
            rcases Reach.exists_edge_into hru with h | ⟨w, hw⟩
            · omega
            · intro hempty
              have := (hsym w u).mpr hw
              rw [hempty] at this
              simp at this
          obtain ⟨c, hc⟩ := Option.isSome_iff_exists.mp (o7 u hlt hadju)
          have h1 : asg' u = some c := hasg'_lift u c hc
          have h2 : asg' u = some cid := (c1 u).mp hu
          rw [h1] at h2
          have : c = cid := by injection h2
          exact hne_cid u c hc this
        have hmem_deg : ∀ u ∈ comp, adj u ≠ [] := by
          intro u hu
          have hru : Reach adj k u := c7 u ((c1 u).mp hu)
          rcases Reach.exists_edge_into hru with h | ⟨w, hw⟩
          · subst h; exact hiso
          · intro hempty
            have := (hsym w u).mpr hw
            rw [hempty] at this
            simp at this
        -- the new state
        show OuterInv d adj vmh n (k + 1)
          (st.1 ++ [mkComp d vmh cid (compBfsAux adj cid (n + 1) asg0 [k] []).1])
          ((compBfsAux adj cid (n + 1) asg0 [k] []).2)
        rw [hr]
        show OuterInv d adj vmh n (k + 1) (st.1 ++ [mkComp d vmh cid comp]) asg'
        refine ⟨?_, ?_, ?_, ?_, ?_, ?_, ?_, c6, ?_, ?_, ?_⟩
        · -- o1
          intro j cmp hj
          rcases Nat.lt_or_ge j cid with h | h
          · rw [List.get?_append h] at hj
            exact o1 j cmp hj
          · rcases Nat.lt_or_ge j (cid + 1) with h' | h'
            · have : j = cid := by omega
              subst this
              rw [hcid, List.get?_concat_length] at hj
              have : mkComp d vmh cid comp = cmp := by injection hj
              rw [← this]
              rfl
            · rw [List.get?_eq_none.mpr (by simp [← hcid]; omega)] at hj
              exact absurd hj (by simp)
        · -- o2
          intro u c
          constructor
          · intro hu
            by_cases hc : c = cid
            · subst hc
              refine ⟨mkComp d vmh cid comp, ?_, ?_⟩
              · rw [hcid, List.get?_concat_length]
              · exact (c1 u).mpr hu
            · have := hasg'_back u c hu hc
              obtain ⟨cmp, hcmp, hmem⟩ := (o2 u c).mp this
              refine ⟨cmp, ?_, hmem⟩
              rw [List.get?_append (hvaluelt u c this)]
              exact hcmp
          · rintro ⟨cmp, hcmp, hmem⟩
            rcases Nat.lt_or_ge c cid with h | h
            · rw [List.get?_append h] at hcmp
              have := (o2 u c).mpr ⟨cmp, hcmp, hmem⟩
              exact hasg'_lift u c this
            · rcases Nat.lt_or_ge c (cid + 1) with h' | h'
              · have : c = cid := by omega
                subst this
                rw [hcid, List.get?_concat_length] at hcmp
                have hcm : mkComp d vmh cid comp = cmp := by injection hcmp
                rw [← hcm] at hmem
                exact (c1 u).mp hmem
              · rw [List.get?_eq_none.mpr (by simp [← hcid]; omega)] at hcmp
                exact absurd hcmp (by simp)
        · -- o3
          intro cmp hcmp
          rcases List.mem_append.mp hcmp with h | h
          · exact o3 cmp h
          · simp at h
            subst h
            exact c2
        · -- o4
          intro u c hu v hv
          by_cases hc : c = cid
          · subst hc
            exact c5 u ((c1 u).mpr hu) v hv
          · have hold := hasg'_back u c hu hc
            have := o4 u c hold v hv
            exact hasg'_lift v c this
        · -- o5
          intro cmp hcmp u hu v hv
          rcases List.mem_append.mp hcmp with h | h
          · exact o5 cmp h u hu v hv
          · simp at h
            subst h
            have hru : Reach adj k u := c7 u ((c1 u).mp hu)
            have hrv : Reach adj k v := c7 v ((c1 v).mp hv)
            exact Reach.trans (Reach.symm (fun u v => hsym v u) hru) hrv
        · -- o6
          intro cmp hcmp u hu
          rcases List.mem_append.mp hcmp with h | h
          · exact o6 cmp h u hu
          · simp at h
            subst h
            exact hmem_deg u hu
        · -- o7
          intro u hu hadju
          rcases Nat.lt_or_ge u k with h | h
          · obtain ⟨c, hc⟩ := Option.isSome_iff_exists.mp (o7 u h hadju)
            exact Option.isSome_iff_exists.mpr ⟨c, hasg'_lift u c hc⟩
          · have : u = k := by omega
            subst this
            exact Option.isSome_iff_exists.mpr ⟨cid, (c1 u).mp hstart_mem⟩
        · -- o9
          intro j cmp hj
          rcases Nat.lt_or_ge j cid with h | h
          · rw [List.get?_append h] at hj
            obtain ⟨s, hs1, hs2, hs3⟩ := o9 j cmp hj
            exact ⟨s, hs1, hs2, by omega⟩
          · rcases Nat.lt_or_ge j (cid + 1) with h' | h'
            · have : j = cid := by omega
              subst this
              rw [hcid, List.get?_concat_length] at hj
              have hcm : mkComp d vmh cid comp = cmp := by injection hj
              refine ⟨k, ?_, ?_, by omega⟩
              · rw [← hcm]; exact hstart_mem
              · intro u hu
                rw [← hcm] at hu
                exact hmem_ge u hu
            · rw [List.get?_eq_none.mpr (by simp [← hcid]; omega)] at hj
              exact absurd hj (by simp)
        · -- o11
          intro j1 j2 cmp1 cmp2 hj1 hj2 hjlt s1 hs1 hs1min s2 hs2 hs2min
          have hj2lt : j2 < cid + 1 := by
            by_contra hge
            push_neg at hge
            rw [List.get?_eq_none.mpr (by simp [← hcid]; omega)] at hj2
            exact absurd hj2 (by simp)
          rcases Nat.lt_or_ge j2 cid with h2 | h2
          · rw [List.get?_append h2] at hj2
            have hj1lt : j1 < cid := by omega
            rw [List.get?_append hj1lt] at hj1
            exact o11 j1 j2 cmp1 cmp2 hj1 hj2 hjlt s1 hs1 hs1min s2 hs2 hs2min
          · have : j2 = cid := by omega
            subst this
            have hj1lt : j1 < cid := hjlt
            rw [List.get?_append hj1lt] at hj1
            rw [hcid, List.get?_concat_length] at hj2
            have hcm : mkComp d vmh cid comp = cmp2 := by injection hj2
            -- s2 is a least member of the new component, so s2 = k
            have hs2k : s2 = k := by
              have h1 : k ≤ s2 := by
                refine hmem_ge s2 ?_
                have hs2' := hs2
                rw [← hcm] at hs2'
                exact hs2'
              have h2 : s2 ≤ k := by
                refine hs2min k ?_
                rw [← hcm]; exact hstart_mem
              omega
            obtain ⟨s, hsm, hsmin, hsk⟩ := o9 j1 cmp1 hj1
            have hss1 : s = s1 := by
              have h1 : s ≤ s1 := hsmin s1 hs1
              have h2 : s1 ≤ s := hs1min s hsm
              omega
            omega
        · -- o10
          intro cmp hcmp
          rcases List.mem_append.mp hcmp with h | h
          · exact o10 cmp h
          · simp at h
            subst h
            exact ⟨rfl, rfl, rfl⟩

theorem contains_iff_mem (l : List String) (a : String) :
    l.contains a = true ↔ a ∈ l := by
  simp [List.contains_eq_any_beq, List.any_eq_true]

/-! ### Consequences for the finished component list -/

theorem componentsOf_inv (d : CorrData) (adj : ℕ → List ℕ) (vmh : List String)
    (n : ℕ) (hadjn : ∀ u v, v ∈ adj u → v < n)
    (hsym : ∀ u v, u ∈ adj v ↔ v ∈ adj u) :
    OuterInv d adj vmh n n
      (componentsOf d adj vmh n) (componentsState d adj vmh n n).2 :=
  componentsState_inv d adj vmh n hadjn hsym n (Nat.le_refl n)

theorem componentsOf_nodup (d : CorrData) (adj : ℕ → List ℕ) (vmh : List String)
    (n : ℕ) (hadjn : ∀ u v, v ∈ adj u → v < n)
    (hsym : ∀ u v, u ∈ adj v ↔ v ∈ adj u) :
    (componentsOf d adj vmh n).Nodup := by
  obtain ⟨o1, -⟩ := componentsOf_inv d adj vmh n hadjn hsym
  rw [List.nodup_iff_injective_get]
  intro i j hij
  have hi : (componentsOf d adj vmh n).get? i.1 = some ((componentsOf d adj vmh n).get i) :=
    List.get?_eq_get i.2
  have hj : (componentsOf d adj vmh n).get? j.1 = some ((componentsOf d adj vmh n).get j) :=
    List.get?_eq_get j.2
  have h1 := o1 i.1 _ hi
  have h2 := o1 j.1 _ hj
  rw [hij] at h1
  rw [h1] at h2
  exact Fin.ext h2

/-- Every member of a listed component has a neighbour inside that same
component (and is itself non-isolated). -/
theorem comp_member_has_inner_edge (d : CorrData) (adj : ℕ → List ℕ)
    (vmh : List String) (n : ℕ) (hadjn : ∀ u v, v ∈ adj u → v < n)
    (hsym : ∀ u v, u ∈ adj v ↔ v ∈ adj u)
    (hirr : ∀ u, u ∉ adj u) :
    ∀ comp ∈ componentsOf d adj vmh n, ∀ u ∈ comp.indices,
      ∃ v, v ∈ adj u ∧ v ∈ comp.indices ∧ v ≠ u := by
  obtain ⟨o1, o2, o3, o4, o5, o6, o7, o8, o9, o11, o10⟩ :=
    componentsOf_inv d adj vmh n hadjn hsym
  intro comp hcomp u hu
  obtain ⟨j, hj⟩ := List.mem_iff_get?.mp hcomp
  have hasg : (componentsState d adj vmh n n).2 u = some j :=
    (o2 u j).mpr ⟨comp, hj, hu⟩
  have hne : adj u ≠ [] := o6 comp hcomp u hu
  obtain ⟨v, hv⟩ := List.exists_mem_of_ne_nil (adj u) hne
  have hvasg := o4 u j hasg v hv
  obtain ⟨comp', hcomp', hvmem⟩ := (o2 v j).mp hvasg
  rw [hj] at hcomp'
  have : comp = comp' := by injection hcomp'
  subst this
  refine ⟨v, hv, hvmem, ?_⟩
  intro hvu
  subst hvu
  exact hirr _ hv

/-- Every node of nonzero degree lies in exactly one listed component. -/
theorem comp_member_unique (d : CorrData) (adj : ℕ → List ℕ)
    (vmh : List String) (n : ℕ) (hadjn : ∀ u v, v ∈ adj u → v < n)
    (hsym : ∀ u v, u ∈ adj v ↔ v ∈ adj u) :
    ∀ u, u < n → adj u ≠ [] →
      ∃! comp, comp ∈ componentsOf d adj vmh n ∧ u ∈ comp.indices := by
  obtain ⟨o1, o2, o3, o4, o5, o6, o7, o8, o9, o11, o10⟩ :=
    componentsOf_inv d adj vmh n hadjn hsym
  intro u hun hadju
  obtain ⟨c, hc⟩ := Option.isSome_iff_exists.mp (o7 u hun hadju)
  obtain ⟨comp, hcomp, hmem⟩ := (o2 u c).mp hc
  refine ⟨comp, ⟨List.get?_mem hcomp, hmem⟩, ?_⟩
  rintro comp' ⟨hcomp', hmem'⟩
  obtain ⟨j, hj⟩ := List.mem_iff_get?.mp hcomp'
  have hasg' : (componentsState d adj vmh n n).2 u = some j :=
    (o2 u j).mpr ⟨comp', hj, hmem'⟩
  rw [hc] at hasg'
  have : c = j := Option.some.inj hasg'
  subst this
  rw [hj] at hcomp
  exact Option.some.inj hcomp

/-- A listed component is exactly the reachability class of any of its
members. -/
theorem comp_eq_reach_class (d : CorrData) (adj : ℕ → List ℕ)
    (vmh : List String) (n : ℕ) (hadjn : ∀ u v, v ∈ adj u → v < n)
    (hsym : ∀ u v, u ∈ adj v ↔ v ∈ adj u) :
    ∀ comp ∈ componentsOf d adj vmh n, ∀ s ∈ comp.indices,
      ∀ u, u ∈ comp.indices ↔ Reach adj s u := by
  obtain ⟨o1, o2, o3, o4, o5, o6, o7, o8, o9, o11, o10⟩ :=
    componentsOf_inv d adj vmh n hadjn hsym
  intro comp hcomp s hs u
  constructor
  · intro hu
    exact o5 comp hcomp s hs u hu
  · intro hr
    obtain ⟨j, hj⟩ := List.mem_iff_get?.mp hcomp
    refine Reach.ind_closed (fun x => x ∈ comp.indices) ?_ hs hr
    intro x hx v hv
    have hasg : (componentsState d adj vmh n n).2 x = some j :=
      (o2 x j).mpr ⟨comp, hj, hx⟩
    have hvasg := o4 x j hasg v hv
    obtain ⟨comp', hcomp', hvmem⟩ := (o2 v j).mp hvasg
    rw [hj] at hcomp'
    have : comp = comp' := by injection hcomp'
    subst this
    exact hvmem

/-- Indices listed in components are below `n`. -/
theorem comp_member_lt (d : CorrData) (adj : ℕ → List ℕ)
    (vmh : List String) (n : ℕ) (hadjn : ∀ u v, v ∈ adj u → v < n)
    (hsym : ∀ u v, u ∈ adj v ↔ v ∈ adj u) :
    ∀ comp ∈ componentsOf d adj vmh n, ∀ u ∈ comp.indices, u < n := by
  obtain ⟨o1, o2, o3, o4, o5, o6, o7, o8, o9, o11, o10⟩ :=
    componentsOf_inv d adj vmh n hadjn hsym
  intro comp hcomp u hu
  obtain ⟨j, hj⟩ := List.mem_iff_get?.mp hcomp
  have hasg : (componentsState d adj vmh n n).2 u = some j :=
    (o2 u j).mpr ⟨comp, hj, hu⟩
  exact o8 u (Option.isSome_iff_exists.mpr ⟨j, hasg⟩)

/-! ### The component sort -/

theorem compLE_total : ∀ a b : Comp, (compLE a b || compLE b a) = true := by
  intro a b
  unfold compLE
  cases ha : a.containsMustHave <;> cases hb : b.containsMustHave <;>
    simp [ha, hb] <;> omega

theorem compLE_trans : ∀ a b c : Comp,
    compLE a b = true → compLE b c = true → compLE a c = true := by
  intro a b c
  unfold compLE
  cases ha : a.containsMustHave <;> cases hb : b.containsMustHave <;>
    cases hc : c.containsMustHave <;> simp [ha, hb, hc] <;> omega

theorem sortComponents_perm (comps : List Comp) :
    (sortComponents comps).Perm comps :=
  List.mergeSort_perm comps compLE

theorem sortComponents_pairwise (comps : List Comp) :
    (sortComponents comps).Pairwise (fun a b => compLE a b = true) :=
  List.sorted_mergeSort compLE_trans compLE_total comps

theorem pair_sublist_of_get? {α : Type} :
    ∀ (l : List α) (p q : ℕ) (a b : α), p < q →
      l.get? p = some a → l.get? q = some b → [a, b].Sublist l := by
  intro l
  induction l with
  | nil =>
    intro p q a b hpq ha hb
    simp at ha
  | cons x xs ih =>
    intro p q a b hpq ha hb
    cases p with
    | zero =>
      simp at ha
      subst ha
      cases q with
      | zero => omega
      | succ q' =>
        rw [List.get?_cons_succ] at hb
        refine List.Sublist.cons₂ _ ?_
        rw [List.singleton_sublist]
        exact List.get?_mem hb
    | succ p' =>
      cases q with
      | zero => omega
      | succ q' =>
        rw [List.get?_cons_succ] at ha hb
        exact List.Sublist.cons _ (ih p' q' a b (by omega) ha hb)

theorem sublist_pair_positions {α : Type} :
    ∀ (l : List α) (a b : α), [a, b].Sublist l →
      ∃ p q, p < q ∧ l.get? p = some a ∧ l.get? q = some b := by
  intro l
  induction l with
  | nil =>
    intro a b h
    exact absurd h (by simp)
  | cons x xs ih =>
    intro a b h
    cases h with
    | cons _ h' =>
      obtain ⟨p, q, hpq, ha, hb⟩ := ih a b h'
      exact ⟨p + 1, q + 1, by omega, by simpa using ha, by simpa using hb⟩
    | cons₂ _ h' =>
      rw [List.singleton_sublist] at h'
      obtain ⟨q, hq⟩ := List.mem_iff_get?.mp h'
      exact ⟨0, q + 1, by omega, by simp, by simpa using hq⟩

/-- Stability of the component sort: two tied components appear in the
sorted list in the same relative order as in the discovery list. -/
theorem sortComponents_tie_order (comps : List Comp) (hnd : comps.Nodup)
    (k l : ℕ) (A B : Comp)
    (hA : (sortComponents comps).get? k = some A)
    (hB : (sortComponents comps).get? l = some B)
    (hkl : k < l) (htieAB : compLE A B = true) (htieBA : compLE B A = true) :
    ∃ p q, p < q ∧ comps.get? p = some A ∧ comps.get? q = some B := by
  have hsortnd : (sortComponents comps).Nodup :=
    ((sortComponents_perm comps).nodup_iff).mpr hnd
  have hAB : A ≠ B := by
    intro hEq
    subst hEq
    have hk : k < (sortComponents comps).length := by
      obtain ⟨h, -⟩ := List.get?_eq_some.mp hA
      exact h
    have := List.get?_inj hk hsortnd (hA.trans hB.symm)
    omega
  have hAmem : A ∈ comps :=
    ((sortComponents_perm comps).mem_iff).mp (List.get?_mem hA)
  have hBmem : B ∈ comps :=
    ((sortComponents_perm comps).mem_iff).mp (List.get?_mem hB)
  obtain ⟨pA, hpA⟩ := List.mem_iff_get?.mp hAmem
  obtain ⟨pB, hpB⟩ := List.mem_iff_get?.mp hBmem
  rcases Nat.lt_or_ge pA pB with h | h
  · exact ⟨pA, pB, h, hpA, hpB⟩
  · have hne : pA ≠ pB := by
      intro hEq
      rw [hEq, hpB] at hpA
      exact hAB (Option.some.inj hpA).symm
    have hBA : pB < pA := by omega
    exfalso
    have hsubl : [B, A].Sublist comps := pair_sublist_of_get? comps pB pA B A hBA hpB hpA
    have hpw : [B, A].Pairwise (fun a b => compLE a b = true) := by
      simp [htieBA]
    have hsorted : [B, A].Sublist (sortComponents comps) :=
      List.sublist_mergeSort compLE_trans compLE_total hpw hsubl
    obtain ⟨p, q, hpq, hp, hq⟩ := sublist_pair_positions _ B A hsorted
    have hqk : q = k := by
      refine List.get?_inj ?_ hsortnd (hq.trans hA.symm)
      obtain ⟨h', -⟩ := List.get?_eq_some.mp hq
      exact h'
    have hpl : p = l := by
      refine List.get?_inj ?_ hsortnd (hp.trans hB.symm)
      obtain ⟨h', -⟩ := List.get?_eq_some.mp hp
      exact h'
    omega

/-! ### detectCluster plumbing -/

theorem detectCluster_error (d : CorrData) (mh : List String) (th : ℚ)
    (h : validMustHave d mh = []) :
    detectCluster d mh th =
      { clusterTickers := []
        components := []
        validMustHave := []
        error := some "None of the must-have tickers found in data" } := by
  unfold detectCluster
  rw [if_pos h]

theorem detectCluster_success (d : CorrData) (mh : List String) (th : ℚ)
    (h : validMustHave d mh ≠ []) :
    detectCluster d mh th =
      { clusterTickers :=
          ((clusterReach d mh th).map (tickerAt d)).mergeSort (fun a b => decide (a ≤ b))
        components := sortComponents (clusterComps d mh th)
        validMustHave := validMustHave d mh
        error := none } := by
  unfold detectCluster
  rw [if_neg h]

theorem clusterAdj_lt (d : CorrData) (th : ℚ) :
    ∀ u v, v ∈ clusterAdj d th u → v < d.tickers.length := by
  intro u v hv
  exact (buildAdj_lt _ _ _ _ _ hv).1

theorem clusterAdj_symm (d : CorrData) (th : ℚ) :
    ∀ u v, u ∈ clusterAdj d th v ↔ v ∈ clusterAdj d th u := by
  intro u v
  exact buildAdj_symm _ _ _ v u

theorem mem_seedIndices (d : CorrData) (vmh : List String) (s : ℕ) :
    s ∈ seedIndices d vmh ↔ ∃ t ∈ vmh, tickerIndex d.tickers t = some s :=
  List.mem_filterMap

theorem mem_validMustHave (d : CorrData) (mh : List String) (t : String) :
    t ∈ validMustHave d mh ↔ t ∈ mh ∧ (tickerIndex d.tickers t).isSome := by
  unfold validMustHave
  rw [List.mem_filter]

theorem seedIndices_ne_nil (d : CorrData) (mh : List String)
    (h : validMustHave d mh ≠ []) : seedIndices d (validMustHave d mh) ≠ [] := by
  obtain ⟨t, ht⟩ := List.exists_mem_of_ne_nil _ h
  have hsome := ((mem_validMustHave d mh t).mp ht).2
  obtain ⟨s, hs⟩ := Option.isSome_iff_exists.mp hsome
  exact List.ne_nil_of_mem ((mem_seedIndices d _ s).mpr ⟨t, ht, hs⟩)

theorem mem_clusterReach (d : CorrData) (mh : List String) (th : ℚ) (u : ℕ) :
    u ∈ clusterReach d mh th ↔
      ∃ s ∈ seedIndices d (validMustHave d mh), Reach (clusterAdj d th) s u :=
  mem_reachableSet _ _ (clusterAdj_lt d th) _ u

theorem clusterReach_lt (d : CorrData) (mh : List String) (th : ℚ) (u : ℕ)
    (h : u ∈ clusterReach d mh th) : u < d.tickers.length := by
  obtain ⟨s, hs, hr⟩ := (mem_clusterReach d mh th u).mp h
  obtain ⟨t, ht, hidx⟩ := (mem_seedIndices d _ s).mp hs
  have hsn := (tickerIndex_spec _ _ _ hidx).1
  rcases Reach.exists_edge_into hr with h' | ⟨w, hw⟩
  · omega
  · exact clusterAdj_lt d th w u hw

theorem tickerAt_inj_on (d : CorrData) (hnd : d.tickers.Nodup) :
    ∀ i, i < d.tickers.length → ∀ j, j < d.tickers.length →
      tickerAt d i = tickerAt d j → i = j := by
  intro i hi j hj hEq
  have h1 := tickerIndex_of_nodup d.tickers hnd i hi
  have h2 := tickerIndex_of_nodup d.tickers hnd j hj
  unfold tickerAt at hEq
  rw [hEq] at h1
  rw [h1] at h2
  exact Option.some.inj h2

/-- Membership characterisation of the reachable-set tickers: a ticker
is reached iff it belongs to a must-have-containing component or is
itself a valid must-have ticker (possibly isolated). -/
theorem clusterTickers_membership (d : CorrData) (mh : List String) (th : ℚ)
    (hnd : d.tickers.Nodup) (tm : String) :
    tm ∈ (clusterReach d mh th).map (tickerAt d) ↔
      ((∃ comp ∈ clusterComps d mh th,
        comp.containsMustHave = true ∧ tm ∈ comp.tickers)
        ∨ tm ∈ validMustHave d mh) := by
  have hadjn := clusterAdj_lt d th
  have hsym := clusterAdj_symm d th
  obtain ⟨o1, o2, o3, o4, o5, o6, o7, o8, o9, o11, o10⟩ :=
    componentsOf_inv d (clusterAdj d th) (validMustHave d mh) d.tickers.length hadjn hsym
  constructor
  · intro hmem
    obtain ⟨u, hu, rfl⟩ := List.mem_map.mp hmem
    obtain ⟨s, hseed, hreach⟩ := (mem_clusterReach d mh th u).mp hu
    obtain ⟨t', ht'vmh, ht'idx⟩ := (mem_seedIndices d _ s).mp hseed
    obtain ⟨hsn, hst'⟩ := tickerIndex_spec _ _ _ ht'idx
    by_cases hadju : clusterAdj d th u = []
    · have hus : u = s := by
        rcases Reach.exists_edge_into hreach with h' | ⟨w, hw⟩
        · exact h'
        · exfalso
          have := (hsym u w).mp hw
          rw [hadju] at this
          simp at this
      subst hus
      right
      have : tickerAt d u = t' := hst'
      rw [this]
      exact ht'vmh
    · have hun : u < d.tickers.length := clusterReach_lt d mh th u hu
      obtain ⟨comp, ⟨hcompmem, humem⟩, -⟩ :=
        comp_member_unique d (clusterAdj d th) (validMustHave d mh)
          d.tickers.length hadjn hsym u hun hadju
      left
      refine ⟨comp, hcompmem, ?_, ?_⟩
      · have hs_in : s ∈ comp.indices := by
          rw [comp_eq_reach_class d (clusterAdj d th) (validMustHave d mh)
            d.tickers.length hadjn hsym comp hcompmem u humem s]
          exact Reach.symm (fun a b => hsym b a) hreach
        rw [(o10 comp hcompmem).2.2, List.any_eq_true]
        refine ⟨s, hs_in, ?_⟩
        rw [contains_iff_mem]
        have : tickerAt d s = t' := hst'
        rw [this]
        exact ht'vmh
      · rw [(o10 comp hcompmem).1]
        exact List.mem_map_of_mem _ humem
  · rintro (⟨comp, hcomp, hmust, htm⟩ | hvmh)
    · rw [(o10 comp hcomp).1] at htm
      obtain ⟨u, humem, rfl⟩ := List.mem_map.mp htm
      rw [(o10 comp hcomp).2.2, List.any_eq_true] at hmust
      obtain ⟨w, hwmem, hwvmh⟩ := hmust
      rw [contains_iff_mem] at hwvmh
      have hwn : w < d.tickers.length :=
        comp_member_lt d (clusterAdj d th) (validMustHave d mh)
          d.tickers.length hadjn hsym comp hcomp w hwmem
      have hwidx : tickerIndex d.tickers (tickerAt d w) = some w :=
        tickerIndex_of_nodup d.tickers hnd w hwn
      have hwseed : w ∈ seedIndices d (validMustHave d mh) :=
        (mem_seedIndices d _ w).mpr ⟨tickerAt d w, hwvmh, hwidx⟩
      have hru : Reach (clusterAdj d th) w u := o5 comp hcomp w hwmem u humem
      have hureach : u ∈ clusterReach d mh th :=
        (mem_clusterReach d mh th u).mpr ⟨w, hwseed, hru⟩
      exact List.mem_map_of_mem _ hureach
    · obtain ⟨s, hs⟩ :=
        Option.isSome_iff_exists.mp ((mem_validMustHave d mh tm).mp hvmh).2
      obtain ⟨hsn, hst⟩ := tickerIndex_spec _ _ _ hs
      have hseed : s ∈ seedIndices d (validMustHave d mh) :=
        (mem_seedIndices d _ s).mpr ⟨tm, hvmh, hs⟩
      have hreach : s ∈ clusterReach d mh th :=
        (mem_clusterReach d mh th s).mpr ⟨s, hseed, Reach.refl⟩
      have : tickerAt d s = tm := hst
      rw [← this]
      exact List.mem_map_of_mem _ hreach

/-! ### Sortedness helpers for the JS `.sort()` calls -/

theorem mergeSortStr_sorted (l : List String) :
    (l.mergeSort (fun a b => decide (a ≤ b))).Sorted (· ≤ ·) := by
  have h := @List.sorted_mergeSort String (fun a b => decide (a ≤ b))
    (fun a b c hab hbc => by
      simp only [decide_eq_true_iff] at *
      exact le_trans hab hbc)
    (fun a b => by
      rcases le_total a b with h | h <;> simp [h]) l
  exact h.imp (fun {a b} hab => by simpa using hab)

theorem mergeSortRat_sorted (l : List ℚ) :
    (l.mergeSort (fun a b => decide (a ≤ b))).Sorted (· ≤ ·) := by
  have h := @List.sorted_mergeSort ℚ (fun a b => decide (a ≤ b))
    (fun a b c hab hbc => by
      simp only [decide_eq_true_iff] at *
      exact le_trans hab hbc)
    (fun a b => by
      rcases le_total a b with h | h <;> simp [h]) l
  exact h.imp (fun {a b} hab => by simpa using hab)

theorem clusterTickers_base_nodup (d : CorrData) (mh : List String) (th : ℚ)
    (hnd : d.tickers.Nodup) :
    ((clusterReach d mh th).map (tickerAt d)).Nodup := by
  refine List.Nodup.map_on ?_ (reachableSet_nodup _ _ _)
  intro x hx y hy hEq
  exact tickerAt_inj_on d hnd x (clusterReach_lt d mh th x hx)
    y (clusterReach_lt d mh th y hy) hEq

/-- The corrected form of the cluster/union law: `clusterTickers` is
the deduplicated ascending-sorted union of the must-have components'
tickers *together with the valid must-have tickers themselves* (a
must-have seed with no qualifying edge belongs to no component but is
still reached by its own BFS). -/
theorem clusterTickers_eq_union (d : CorrData) (mh : List String) (th : ℚ)
    (hnd : d.tickers.Nodup) (hvmh : validMustHave d mh ≠ []) :
    (detectCluster d mh th).clusterTickers =
      ((((detectCluster d mh th).components.filter
          (fun c => c.containsMustHave)).flatMap (fun c => c.tickers))
        ++ (detectCluster d mh th).validMustHave).dedup.mergeSort
        (fun a b => decide (a ≤ b)) := by
  rw [detectCluster_success d mh th hvmh]
  show ((clusterReach d mh th).map (tickerAt d)).mergeSort (fun a b => decide (a ≤ b)) =
    ((((sortComponents (clusterComps d mh th)).filter
        (fun c => c.containsMustHave)).flatMap (fun c => c.tickers))
      ++ validMustHave d mh).dedup.mergeSort (fun a b => decide (a ≤ b))
  refine List.eq_of_perm_of_sorted ?_ (mergeSortStr_sorted _) (mergeSortStr_sorted _)
  refine ((List.mergeSort_perm _ _).trans ?_).trans (List.mergeSort_perm _ _).symm
  rw [List.perm_ext_iff_of_nodup (clusterTickers_base_nodup d mh th hnd)
    (List.nodup_dedup _)]
  intro tm
  rw [List.mem_dedup, List.mem_append, List.mem_flatMap,
    clusterTickers_membership d mh th hnd tm]
  constructor
  · rintro (⟨comp, hcomp, hmust, htm⟩ | hvmh')
    · left
      refine ⟨comp, ?_, htm⟩
      rw [List.mem_filter]
      exact ⟨((sortComponents_perm _).mem_iff).mpr hcomp, hmust⟩
    · right
      exact hvmh'
  · rintro (⟨comp, hcomp, htm⟩ | hvmh')
    · rw [List.mem_filter] at hcomp
      left
      exact ⟨comp, ((sortComponents_perm _).mem_iff).mp hcomp.1, hcomp.2, htm⟩
    · right
      exact hvmh'

/-- Lemma: `buildAdj` consults only the upper-triangle entries of the matrix:
two matrices agreeing on `i < j` entries yield identical adjacency. -/
theorem buildAdj_congr (n : ℕ) (m m' : ℕ → ℕ → ℚ) (th : ℚ)
    (h : ∀ i j, i < j → m i j = m' i j) :
    buildAdj n m th = buildAdj n m' th := by
  unfold buildAdj
  have hinner : ∀ (i : ℕ) (js : List ℕ), (∀ j ∈ js, i < j) → ∀ adj,
      js.foldl (adjInsert m th i) adj = js.foldl (adjInsert m' th i) adj := by
    intro i js
    induction js with
    | nil => intro _ adj; rfl
    | cons j rest ih =>
      intro hji adj
      simp only [List.foldl_cons]
      have hj : i < j := hji j (List.mem_cons_self _ _)
      have : adjInsert m th i adj j = adjInsert m' th i adj j := by
        unfold adjInsert
        rw [h i j hj]
      rw [this]
      exact ih (fun x hx => hji x (List.mem_cons_of_mem _ hx)) _
  have houter : ∀ (is : List ℕ) (adj : ℕ → List ℕ),
      is.foldl (fun adj i =>
        (List.range' (i + 1) (n - (i + 1))).foldl (adjInsert m th i) adj) adj =
      is.foldl (fun adj i =>
        (List.range' (i + 1) (n - (i + 1))).foldl (adjInsert m' th i) adj) adj := by
    intro is
    induction is with
    | nil => intro adj; rfl
    | cons i rest ih =>
      intro adj
      simp only [List.foldl_cons]
      rw [hinner i _ (fun j hj => by
        rw [List.mem_range'_1] at hj
        omega) adj]
      exact ih _
  exact houter _ _

/-! ### Nearest-rank index arithmetic -/

theorem floor_half_mul (len : ℕ) : ⌊(0.5 : ℚ) * (len : ℚ)⌋₊ = len * 50 / 100 := by
  have h1 : (0.5 : ℚ) * (len : ℚ) = ((len * 50 : ℕ) : ℚ) / ((100 : ℕ) : ℚ) := by
    push_cast
    ring
  rw [h1, Nat.floor_div_nat, Nat.floor_natCast]

theorem floor_ninetyfive_mul (len : ℕ) :
    ⌊(0.95 : ℚ) * (len : ℚ)⌋₊ = len * 95 / 100 := by
  have h1 : (0.95 : ℚ) * (len : ℚ) = ((len * 95 : ℕ) : ℚ) / ((100 : ℕ) : ℚ) := by
    push_cast
    ring
  rw [h1, Nat.floor_div_nat, Nat.floor_natCast]

theorem clusterTickers_ne_nil (d : CorrData) (mh : List String) (th : ℚ)
    (hvmh : validMustHave d mh ≠ []) :
    (detectCluster d mh th).clusterTickers ≠ [] := by
  rw [detectCluster_success d mh th hvmh]
  show ((clusterReach d mh th).map (tickerAt d)).mergeSort (fun a b => decide (a ≤ b)) ≠ []
  intro hnil
  have hlen := congrArg List.length hnil
  rw [List.length_mergeSort, List.length_map] at hlen
  obtain ⟨s, hs⟩ := List.exists_mem_of_ne_nil _ (seedIndices_ne_nil d mh hvmh)
  have hsr : s ∈ clusterReach d mh th :=
    (mem_clusterReach d mh th s).mpr ⟨s, hs, Reach.refl⟩
  simp only [List.length_nil] at hlen
  rw [List.length_eq_zero] at hlen
  rw [hlen] at hsr
  simp at hsr

/-! ### Example data used by the witnesses and counterexamples -/

/-- Two tickers, identity correlation matrix: both nodes isolated at
any positive threshold. -/
def mtxId : ℕ → ℕ → ℚ := fun i j => if i = j then 1 else 0

def dIso : CorrData := ⟨["A", "B"], mtxId⟩

/-- Four tickers with qualifying edges A–B and C–D only (the §8
concrete scenario); symmetric by construction. -/
def mtxTwo : ℕ → ℕ → ℚ := fun i j =>
  if i = j then 1
  else if i + j = 1 then 1
  else if i + j = 5 ∧ i * j = 6 then 1
  else 0

def dTwo : CorrData := ⟨["A", "B", "C", "D"], mtxTwo⟩

theorem mtxTwo_symm : ∀ i j, mtxTwo i j = mtxTwo j i := by
  intro i j
  unfold mtxTwo
  by_cases hij : i = j
  · subst hij
    rfl
  · rw [if_neg hij, if_neg (Ne.symm hij), Nat.add_comm j i, Nat.mul_comm j i]

/-! ### Claim theorems -/

/-- C10: the adjacency structure built by `detectCluster` is symmetric
and self-loop-free for every input matrix, including non-symmetric
ones: for `i < j < n`, `j ∈ adj[i]` iff `i ∈ adj[j]` iff
`|matrix[i][j]| ≥ threshold` (only the upper-triangle entry is ever
consulted, witnessed by the congruence conjunct), and no index appears
in its own adjacency list. -/
theorem c10_adjacency_symmetric :
    ∀ (n : ℕ) (m : ℕ → ℕ → ℚ) (th : ℚ),
      (∀ i j, i < j → j < n →
        ((j ∈ buildAdj n m th i ↔ i ∈ buildAdj n m th j) ∧
         (j ∈ buildAdj n m th i ↔ th ≤ |m i j|))) ∧
      (∀ i, i ∉ buildAdj n m th i) ∧
      (∀ m', (∀ i j, i < j → m i j = m' i j) →
        buildAdj n m th = buildAdj n m' th) := by
  intro n m th
  refine ⟨?_, fun i => buildAdj_irrefl n m th i,
    fun m' h => buildAdj_congr n m m' th h⟩
  intro i j hij hjn
  constructor
  · exact buildAdj_symm n m th i j
  · rw [mem_buildAdj]
    constructor
    · rintro (⟨-, -, hc⟩ | ⟨h1, -, -⟩)
      · exact hc
      · omega
    · intro hc
      exact Or.inl ⟨hij, hjn, hc⟩

theorem c10_witness :
    (1 ∈ buildAdj 2 mtxId (1/2) 0 ↔ 0 ∈ buildAdj 2 mtxId (1/2) 1) ∧
    (1 ∈ buildAdj 2 mtxId (1/2) 0 ↔ (1/2 : ℚ) ≤ |mtxId 0 1|) :=
  (c10_adjacency_symmetric 2 mtxId (1/2)).1 0 1 (by decide) (by decide)

/-- C9: `detectCluster` is deterministic — two calls on equal inputs
produce equal results (equal `clusterTickers`, equal component
membership and ordering). -/
theorem c9_deterministic :
    ∀ (d1 d2 : CorrData) (mh1 mh2 : List String) (th1 th2 : ℚ),
      d1 = d2 → mh1 = mh2 → th1 = th2 →
      detectCluster d1 mh1 th1 = detectCluster d2 mh2 th2 := by
  intro d1 d2 mh1 mh2 th1 th2 h1 h2 h3
  subst h1
  subst h2
  subst h3
  rfl

theorem c9_witness :
    detectCluster dIso ["A"] (1/2) = detectCluster dIso ["A"] (1/2) :=
  c9_deterministic dIso dIso ["A"] ["A"] (1/2) (1/2) rfl rfl rfl

/-- C3: when no requested must-have ticker is present, the result has
empty `clusterTickers`, empty `components` and the error marker set;
when at least one is present, the error marker is absent. -/
theorem c3_seed_not_found :
    ∀ (d : CorrData) (mh : List String) (th : ℚ),
      (validMustHave d mh = [] →
        (detectCluster d mh th).clusterTickers = [] ∧
        (detectCluster d mh th).components = [] ∧
        (detectCluster d mh th).error =
          some "None of the must-have tickers found in data") ∧
      (validMustHave d mh ≠ [] → (detectCluster d mh th).error = none) := by
  intro d mh th
  constructor
  · intro h
    rw [detectCluster_error d mh th h]
    exact ⟨rfl, rfl, rfl⟩
  · intro h
    rw [detectCluster_success d mh th h]

theorem c3_witness :
    ((detectCluster dIso ["Z"] (1/2)).clusterTickers = [] ∧
     (detectCluster dIso ["Z"] (1/2)).components = [] ∧
     (detectCluster dIso ["Z"] (1/2)).error =
       some "None of the must-have tickers found in data") ∧
    (detectCluster dIso ["A"] (1/2)).error = none :=
  ⟨(c3_seed_not_found dIso ["Z"] (1/2)).1 (by decide),
   (c3_seed_not_found dIso ["A"] (1/2)).2 (by decide)⟩

/-- C2 (counterexample to the claimed existence): there is *no* input
with a valid must-have ticker, no error marker, and an empty
`clusterTickers` — the BFS always reaches the seed itself, so the
cluster list of a successful call is never empty. -/
theorem c2_counterexample :
    ¬ ∃ (d : CorrData) (mh : List String) (th : ℚ),
      validMustHave d mh ≠ [] ∧
      (detectCluster d mh th).error = none ∧
      (detectCluster d mh th).clusterTickers = [] := by
  rintro ⟨d, mh, th, hvmh, -, hempty⟩
  exact clusterTickers_ne_nil d mh th hvmh hempty

/-- C2 (amended): an empty `clusterTickers` list coincides exactly
with the error marker being set; in particular a valid seed with no
qualifying edges yields the nonempty singleton cluster of that seed,
not an empty list, so the two conditions are distinguishable — but not
in the way the claim describes. -/
theorem c2_amended :
    ∀ (d : CorrData) (mh : List String) (th : ℚ),
      ((detectCluster d mh th).clusterTickers = [] ↔
        (detectCluster d mh th).error.isSome) := by
  intro d mh th
  by_cases h : validMustHave d mh = []
  · rw [detectCluster_error d mh th h]
    simp
  · constructor
    · intro h2
      exact absurd h2 (clusterTickers_ne_nil d mh th h)
    · intro h2
      rw [detectCluster_success d mh th h] at h2
      simp at h2

/-- C1 (counterexample): with tickers `[A, B]`, no qualifying edges and
must-have `[A]`, the component list is empty (so the union over
must-have components is empty) while `clusterTickers = [A]`: the
isolated seed is reached by its own BFS but belongs to no component. -/
theorem c1_counterexample :
    ¬ ((detectCluster dIso ["A"] 1).clusterTickers =
      (((detectCluster dIso ["A"] 1).components.filter
          (fun c => c.containsMustHave)).flatMap (fun c => c.tickers)).dedup.mergeSort
        (fun a b => decide (a ≤ b))) := by
  have hvmh : validMustHave dIso ["A"] ≠ [] := by decide
  have h1 : (detectCluster dIso ["A"] 1).clusterTickers = ["A"] := by
    rw [detectCluster_success dIso ["A"] 1 hvmh]
    show ((clusterReach dIso ["A"] 1).map (tickerAt dIso)).mergeSort
      (fun a b => decide (a ≤ b)) = ["A"]
    have h : (clusterReach dIso ["A"] 1).map (tickerAt dIso) = ["A"] := by decide
    rw [h, List.mergeSort_singleton]
  have h2 : (detectCluster dIso ["A"] 1).components = [] := by
    rw [detectCluster_success dIso ["A"] 1 hvmh]
    show sortComponents (clusterComps dIso ["A"] 1) = []
    have h : clusterComps dIso ["A"] 1 = [] := by decide
    rw [h]
    exact List.mergeSort_nil
  rw [h1, h2]
  simp

/-- C1 (amended): for a matrix with duplicate-free tickers and at
least one valid must-have identifier, `clusterTickers` is the
deduplicated ascending-sorted union of the must-have components'
identifiers *together with the valid must-have identifiers themselves*
(isolated seeds belong to no component but are still included). -/
theorem c1_amended (d : CorrData) (mh : List String) (th : ℚ)
    (hnd : d.tickers.Nodup) (hvmh : validMustHave d mh ≠ []) :
    (detectCluster d mh th).clusterTickers =
      ((((detectCluster d mh th).components.filter
          (fun c => c.containsMustHave)).flatMap (fun c => c.tickers))
        ++ (detectCluster d mh th).validMustHave).dedup.mergeSort
        (fun a b => decide (a ≤ b)) :=
  clusterTickers_eq_union d mh th hnd hvmh

theorem c1_witness :
    (detectCluster dTwo ["A"] 1).clusterTickers =
      ((((detectCluster dTwo ["A"] 1).components.filter
          (fun c => c.containsMustHave)).flatMap (fun c => c.tickers))
        ++ (detectCluster dTwo ["A"] 1).validMustHave).dedup.mergeSort
        (fun a b => decide (a ≤ b)) :=
  c1_amended dTwo ["A"] 1 (by decide) (by decide)

/-- C4: for every matrix interpreted as symmetric and every threshold
(on a run with at least one valid seed), every node listed in a
returned component has a qualifying edge (`|matrix[u][v]| ≥ threshold`,
`v ≠ u`) to another node of that same component, and every node of
degree ≥ 1 appears in exactly one returned component. -/
theorem c4_components (d : CorrData) (mh : List String) (th : ℚ)
    (hm : ∀ i j, d.matrix i j = d.matrix j i)
    (hvmh : validMustHave d mh ≠ []) :
    (∀ comp ∈ (detectCluster d mh th).components, ∀ u ∈ comp.indices,
      ∃ v, v ≠ u ∧ v ∈ comp.indices ∧ th ≤ |d.matrix u v|) ∧
    (∀ u, u < d.tickers.length →
      (∃ v, v < d.tickers.length ∧ v ≠ u ∧ th ≤ |d.matrix u v|) →
      ∃! comp, comp ∈ (detectCluster d mh th).components ∧ u ∈ comp.indices) := by
  have hadjn := clusterAdj_lt d th
  have hsym := clusterAdj_symm d th
  have hirr : ∀ u, u ∉ clusterAdj d th u := fun u => buildAdj_irrefl _ _ _ u
  have hedge_val : ∀ u v, v ∈ clusterAdj d th u → th ≤ |d.matrix u v| := by
    intro u v hv
    rcases (mem_buildAdj _ _ _ _ _).mp hv with ⟨-, -, hc⟩ | ⟨-, -, hc⟩
    · exact hc
    · rw [hm u v]
      exact hc
  have hcomponents : (detectCluster d mh th).components =
      sortComponents (clusterComps d mh th) := by
    rw [detectCluster_success d mh th hvmh]
  constructor
  · intro comp hcomp u hu
    rw [hcomponents] at hcomp
    have hcomp' : comp ∈ clusterComps d mh th :=
      ((sortComponents_perm _).mem_iff).mp hcomp
    obtain ⟨v, hvadj, hvmem, hvne⟩ :=
      comp_member_has_inner_edge d (clusterAdj d th) (validMustHave d mh)
        d.tickers.length hadjn hsym hirr comp hcomp' u hu
    exact ⟨v, hvne, hvmem, hedge_val u v hvadj⟩
  · intro u hun hdeg
    obtain ⟨v, hvn, hvne, hval⟩ := hdeg
    have hadju : clusterAdj d th u ≠ [] := by
      have hvadj : v ∈ clusterAdj d th u := by
        unfold clusterAdj
        rw [mem_buildAdj]
        rcases Nat.lt_or_ge u v with h | h
        · exact Or.inl ⟨h, hvn, hval⟩
        · have hvu : v < u := by omega
          refine Or.inr ⟨hvu, hun, ?_⟩
          rw [hm v u]
          exact hval
      exact List.ne_nil_of_mem hvadj
    obtain ⟨comp, ⟨hcomp, hmem⟩, huniq⟩ :=
      comp_member_unique d (clusterAdj d th) (validMustHave d mh)
        d.tickers.length hadjn hsym u hun hadju
    refine ⟨comp, ⟨?_, hmem⟩, ?_⟩
    · rw [hcomponents]
      exact ((sortComponents_perm _).mem_iff).mpr hcomp
    · rintro comp' ⟨hcomp', hmem'⟩
      rw [hcomponents] at hcomp'
      exact huniq comp' ⟨((sortComponents_perm _).mem_iff).mp hcomp', hmem'⟩

theorem c4_witness :
    (∀ comp ∈ (detectCluster dTwo ["A"] 1).components, ∀ u ∈ comp.indices,
      ∃ v, v ≠ u ∧ v ∈ comp.indices ∧ (1 : ℚ) ≤ |dTwo.matrix u v|) ∧
    (∀ u, u < dTwo.tickers.length →
      (∃ v, v < dTwo.tickers.length ∧ v ≠ u ∧ (1 : ℚ) ≤ |dTwo.matrix u v|) →
      ∃! comp, comp ∈ (detectCluster dTwo ["A"] 1).components ∧ u ∈ comp.indices) :=
  c4_components dTwo ["A"] 1 mtxTwo_symm (by decide)

/-- C5: component ordering — must-have-containing components precede
the rest; within equal flags larger size precedes; components tied on
both flag and size appear in discovery order, i.e. by ascending
smallest-member index. -/
theorem c5_ordering (d : CorrData) (mh : List String) (th : ℚ) :
    ∀ (k l : ℕ) (A B : Comp),
      (detectCluster d mh th).components.get? k = some A →
      (detectCluster d mh th).components.get? l = some B →
      k < l →
      ((B.containsMustHave = true → A.containsMustHave = true) ∧
       (A.containsMustHave = B.containsMustHave → B.size ≤ A.size) ∧
       (A.containsMustHave = B.containsMustHave → A.size = B.size →
         ∃ ma mb, ma ∈ A.indices ∧ (∀ u ∈ A.indices, ma ≤ u) ∧
           mb ∈ B.indices ∧ (∀ u ∈ B.indices, mb ≤ u) ∧ ma < mb)) := by
  intro k l A B hA hB hkl
  by_cases hvmh : validMustHave d mh = []
  · rw [detectCluster_error d mh th hvmh] at hA
    simp at hA
  ·
    have hcomponents : (detectCluster d mh th).components =
        sortComponents (clusterComps d mh th) := by
      rw [detectCluster_success d mh th hvmh]
    rw [hcomponents] at hA hB
    have hadjn := clusterAdj_lt d th
    have hsym := clusterAdj_symm d th
    -- pairwise sortedness gives the comparator between the two positions
    have hpw := sortComponents_pairwise (clusterComps d mh th)
    have hle : compLE A B = true := by
      rw [List.pairwise_iff_get] at hpw
      obtain ⟨hk, hAg⟩ := List.get?_eq_some.mp hA
      obtain ⟨hl, hBg⟩ := List.get?_eq_some.mp hB
      have := hpw ⟨k, hk⟩ ⟨l, hl⟩ (by exact hkl)
      rw [hAg, hBg] at this
      exact this
    refine ⟨?_, ?_, ?_⟩
    · intro hBm
      by_contra hAm
      have hAm' : A.containsMustHave = false := by
        cases h : A.containsMustHave
        · rfl
        · exact absurd h hAm
      rw [compLE, hAm', hBm] at hle
      simp at hle
    · intro hEq
      rw [compLE, hEq] at hle
      simp at hle
      exact hle
    · intro hEq hsz
      have hleBA : compLE B A = true := by
        rw [compLE, ← hEq, hsz]
        simp
      -- stability: A precedes B already in the discovery list
      have hnd : (clusterComps d mh th).Nodup :=
        componentsOf_nodup d (clusterAdj d th) (validMustHave d mh)
          d.tickers.length hadjn hsym
      obtain ⟨p, q, hpq, hp, hq⟩ :=
        sortComponents_tie_order (clusterComps d mh th) hnd k l A B hA hB hkl hle hleBA
      obtain ⟨-, -, -, -, -, -, -, -, o9, o11, -⟩ :=
        componentsOf_inv d (clusterAdj d th) (validMustHave d mh)
          d.tickers.length hadjn hsym
      obtain ⟨ma, hma, hmamin, -⟩ := o9 p A hp
      obtain ⟨mb, hmb, hmbmin, -⟩ := o9 q B hq
      exact ⟨ma, mb, hma, hmamin, hmb, hmbmin,
        o11 p q A B hp hq hpq ma hma hmamin mb hmb hmbmin⟩

/-- The two components of the `dTwo` example run. -/
def compTwoA : Comp := ⟨0, [0, 1], ["A", "B"], 2, true⟩

def compTwoB : Comp := ⟨1, [2, 3], ["C", "D"], 2, false⟩

theorem dTwo_components :
    (detectCluster dTwo ["A"] 1).components = [compTwoA, compTwoB] := by
  rw [detectCluster_success dTwo ["A"] 1 (by decide)]
  show sortComponents (clusterComps dTwo ["A"] 1) = [compTwoA, compTwoB]
  have h : clusterComps dTwo ["A"] 1 = [compTwoA, compTwoB] := by decide
  rw [h]
  refine List.mergeSort_of_sorted ?_
  simp only [List.pairwise_cons]
  refine ⟨?_, ?_, List.Pairwise.nil⟩
  · intro b hb
    rw [List.mem_singleton] at hb
    subst hb
    decide
  · intro a ha
    exact absurd ha (by simp)

theorem c5_witness :
    (compTwoB.containsMustHave = true → compTwoA.containsMustHave = true) ∧
    (compTwoA.containsMustHave = compTwoB.containsMustHave →
      compTwoB.size ≤ compTwoA.size) ∧
    (compTwoA.containsMustHave = compTwoB.containsMustHave →
      compTwoA.size = compTwoB.size →
      ∃ ma mb, ma ∈ compTwoA.indices ∧ (∀ u ∈ compTwoA.indices, ma ≤ u) ∧
        mb ∈ compTwoB.indices ∧ (∀ u ∈ compTwoB.indices, mb ≤ u) ∧ ma < mb) :=
  c5_ordering dTwo ["A"] 1 0 1 compTwoA compTwoB
    (by rw [dTwo_components]; rfl) (by rw [dTwo_components]; rfl) (by decide)

/-- C6: for every nonempty latency sample list, all samplers return
the nearest-rank percentiles: the elements at indices
`⌊0.5·len⌋` and `⌊0.95·len⌋` of the ascending-sorted sample list. -/
theorem c6_percentiles :
    ∀ (lats stamps : List ℚ), lats ≠ [] →
      ∃ sorted : List ℚ, sorted.Perm lats ∧ sorted.Sorted (· ≤ ·) ∧
        (brushStats lats stamps).p50 =
          sorted.getD (⌊(0.5 : ℚ) * (sorted.length : ℚ)⌋₊) 0 ∧
        (brushStats lats stamps).p95 =
          sorted.getD (⌊(0.95 : ℚ) * (sorted.length : ℚ)⌋₊) 0 ∧
        (hoverStatsOf lats).p50 =
          sorted.getD (⌊(0.5 : ℚ) * (sorted.length : ℚ)⌋₊) 0 ∧
        (hoverStatsOf lats).p95 =
          sorted.getD (⌊(0.95 : ℚ) * (sorted.length : ℚ)⌋₊) 0 := by
  intro lats stamps hne
  refine ⟨sortLatencies lats, List.mergeSort_perm _ _, mergeSortRat_sorted _,
    ?_, ?_, ?_, ?_⟩
  · rw [floor_half_mul]
    rfl
  · rw [floor_ninetyfive_mul]
    rfl
  · rw [floor_half_mul]
    rfl
  · rw [floor_ninetyfive_mul]
    rfl

theorem c6_witness :
    ∃ sorted : List ℚ, sorted.Perm [2, 1] ∧ sorted.Sorted (· ≤ ·) ∧
      (brushStats [2, 1] []).p50 =
        sorted.getD (⌊(0.5 : ℚ) * (sorted.length : ℚ)⌋₊) 0 ∧
      (brushStats [2, 1] []).p95 =
        sorted.getD (⌊(0.95 : ℚ) * (sorted.length : ℚ)⌋₊) 0 ∧
      (hoverStatsOf [2, 1]).p50 =
        sorted.getD (⌊(0.5 : ℚ) * (sorted.length : ℚ)⌋₊) 0 ∧
      (hoverStatsOf [2, 1]).p95 =
        sorted.getD (⌊(0.95 : ℚ) * (sorted.length : ℚ)⌋₊) 0 :=
  c6_percentiles [2, 1] [] (by decide)

/-- C7 (counterexample): the returned fps is `Math.round`ed, so it is
not equal to the raw formula `1000 / ((last − first) / (count − 1))`:
with one latency sample and frame timestamps `[0, 3]` the code returns
`333`, while the raw formula gives `1000/3`. -/
theorem c7_counterexample :
    (brushStats [1] [0, 3]).fps ≠ 1000 / (((3 : ℚ) - 0) / (2 - 1)) := by
  have h : (brushStats [1] [0, 3]).fps = 333 := by
    show jsRound (if 1 < ([0, 3] : List ℚ).length then
        1000 / ((([0, 3] : List ℚ).getLast?.getD 0 - ([0, 3] : List ℚ).head?.getD 0) /
          ((([0, 3] : List ℚ).length - 1 : ℕ) : ℚ))
      else 0) = 333
    rw [if_pos (by decide)]
    have h1 : (([0, 3] : List ℚ).getLast?.getD 0 - ([0, 3] : List ℚ).head?.getD 0) /
        ((([0, 3] : List ℚ).length - 1 : ℕ) : ℚ) = 3 := by
      simp
    rw [h1]
    show ((⌊(1000 / 3 : ℚ) + 1 / 2⌋ : ℤ) : ℚ) = 333
    have h2 : (⌊(1000 / 3 : ℚ) + 1 / 2⌋ : ℤ) = 333 := by
      rw [Int.floor_eq_iff]
      constructor <;> norm_num
    rw [h2]
    norm_num
  rw [h]
  norm_num

/-- C7 (amended): the returned fps equals the `Math.round` of
`1000 / ((last − first) / (count − 1))` when more than one frame
timestamp was recorded, and `0` otherwise. -/
theorem c7_amended :
    ∀ (lats stamps : List ℚ),
      (1 < stamps.length →
        (brushStats lats stamps).fps =
          jsRound (1000 / ((stamps.getLast?.getD 0 - stamps.head?.getD 0) /
            ((stamps.length : ℚ) - 1)))) ∧
      (stamps.length ≤ 1 → (brushStats lats stamps).fps = 0) := by
  intro lats stamps
  constructor
  · intro h
    show jsRound (if 1 < stamps.length then
        1000 / ((stamps.getLast?.getD 0 - stamps.head?.getD 0) /
          ((stamps.length - 1 : ℕ) : ℚ))
      else 0) = _
    rw [if_pos h]
    have h1 : 1 ≤ stamps.length := by omega
    rw [Nat.cast_sub h1, Nat.cast_one]
  · intro h
    show jsRound (if 1 < stamps.length then
        1000 / ((stamps.getLast?.getD 0 - stamps.head?.getD 0) /
          ((stamps.length - 1 : ℕ) : ℚ))
      else 0) = 0
    rw [if_neg (by omega)]
    show ((⌊(0 : ℚ) + 1 / 2⌋ : ℤ) : ℚ) = 0
    norm_num

theorem c7_witness :
    (brushStats [1] [0, 3]).fps =
      jsRound (1000 / ((([0, 3] : List ℚ).getLast?.getD 0 -
        ([0, 3] : List ℚ).head?.getD 0) /
        ((([0, 3] : List ℚ).length : ℚ) - 1))) :=
  (c7_amended [1] [0, 3]).1 (by decide)

/-- C8 (counterexample): on a zero-element target, `measureBrushLatency`
in matrix.js resolves the bare number `0`, not the record
`{p50: 0, p95: 0, fps: 0}` the claim promises for every sampler. -/
theorem c8_counterexample :
    measureBrushLatencyModel 0 [] [] ≠ MeasureOutcome.stats ⟨0, 0, 0⟩ := by
  decide

/-- C8 (amended): on a zero-element target the enriched-matrix and
dynamic-prism `measureBrush` resolve `{p50: 0, p95: 0, fps: 0}`
immediately, while matrix.js's `measureBrushLatency` and
`measureHoverLatency` resolve the bare number `0` instead; none of
them runs a trial or signals an error. -/
theorem c8_amended :
    ∀ (lats stamps : List ℚ),
      measureBrushEnrichedModel 0 lats stamps = .stats ⟨0, 0, 0⟩ ∧
      measureBrushPrismModel 0 lats stamps = .stats ⟨0, 0, 0⟩ ∧
      measureBrushLatencyModel 0 lats stamps = .scalar 0 ∧
      measureHoverLatencyModel 0 lats = .scalar 0 := by
  intro lats stamps
  exact ⟨rfl, rfl, rfl, rfl⟩
